import Mathlib

/-!
ASCII-Img-Gen: a shallow embedding of `main.go`.

The program decodes an image, replaces near-white pixels by gray, resizes the
result into a 164x164 box, maps every second row of pixels to characters of a
fixed ramp and draws the character grid on a canvas.

Conventions of the embedding:

* Go `int` is the 64-bit two's-complement integer; values are `Int`, and a
  product that could leave the range is wrapped explicitly (`wrapInt64`).
* Go `uint32` / `uint8` values are `Nat`, wrapped with `% 2^32` / `% 256`
  where the source converts or adds.
* Go `float64` values that occur are non-negative and finite; they are held
  exactly as a fraction `num / den` (`F64`), and every operation that can
  round is rounded to the nearest 53-bit significand, ties to even.
* a Go `string` is its sequence of bytes, `List Char` (all bytes that occur
  in the ramp are ASCII).
* a run-time panic (index out of range, division by zero) is `none`.
* the file system is the function `stat` of the answers of `os.Stat` (the
  path exists, it does not exist, or another error); paths follow
  `path/filepath` on Unix, with the separator `/`.
-/

namespace AsciiImg

/-! ## float64 -/

/-- A finite non-negative float64 value, held exactly as `num / den`. -/
structure F64 where
  num : Nat
  den : Nat
deriving DecidableEq, Repr

namespace F64

/-- Conversion of an unsigned integer below `2^53` to float64 (exact). -/
def ofNat (n : Nat) : F64 := ⟨n, 1⟩

/-- Search for the highest set bit: `ilog2Aux fuel n = floor(log2 n)` once
`fuel` is at least the number of bits of `n`. -/
def ilog2Aux : Nat → Nat → Nat
  | 0, _ => 0
  | fuel + 1, n => if n < 2 then 0 else ilog2Aux fuel (n / 2) + 1

/-- The position `floor(log2 n)` of the highest set bit of `n` (0 for `n = 0`). -/
def ilog2 (n : Nat) : Nat := ilog2Aux n n

/-- The float64 nearest to the positive fraction `n / d` (round to nearest,
ties to even), for a quotient in the normal range below `2^53`: the
fraction is scaled by `2^u` so that its integer part has exactly 53 bits,
and the remainder decides the rounding. -/
def round (n d : Nat) : F64 :=
  if n = 0 then ⟨0, 1⟩ else
  let u0 := 53 + ilog2 d - ilog2 n
  let u := if n * 2 ^ u0 < d * 2 ^ 53 then u0 else u0 - 1
  let q := n * 2 ^ u / d
  let r := n * 2 ^ u % d
  let m := if d < 2 * r ∨ (2 * r = d ∧ q % 2 = 1) then q + 1 else q
  ⟨m, 2 ^ u⟩

/-- Float64 division `x / y`. -/
def div (x y : F64) : F64 := round (x.num * y.den) (x.den * y.num)

/-- Float64 multiplication `x * y`. -/
def mul (x y : F64) : F64 := round (x.num * y.num) (x.den * y.den)

/-- Float64 square root (`math.Sqrt`, correctly rounded) of an integer-valued
float64 `s` below `2^53`: with `k = 52 - floor(log2 s / 2)` the root scaled
by `2^k` has a 53-bit integer part `q`; it is rounded up when the root lies
above `q + 1/2`, that is when `s * 4^k > q^2 + q`. -/
def sqrt (s : Nat) : F64 :=
  if s = 0 then ⟨0, 1⟩ else
  let k := 52 - ilog2 s / 2
  let n := s * 4 ^ k
  let q := Nat.sqrt n
  let m := if q * q + q < n then q + 1 else q
  ⟨m, 2 ^ k⟩

/-- Float64 comparison `x < y`. -/
def lt (x y : F64) : Bool := decide (x.num * y.den < y.num * x.den)

/-- Conversion `int(x)` of a non-negative float64: truncation. -/
def toInt (x : F64) : Nat := x.num / x.den

end F64

/-! ## The ramp and `mapBrightnessToChar` -/

/-- The ramp `asciiChars` of `main.go`, from the densest glyph to the space.
The backslash, the braces, the double quote, the backtick and the apostrophe
of the Go literal are written as escapes `\x5c \x7b \x7d \x22 \x60 \x27`. -/
def asciiChars : List Char :=
  "@$#%&MW8BZO0QLCJUYXzcvunxrjft/\x5c|()1\x7b\x7d[]?-_+~<>i!lI;:,.\x22^\x60\x27 ".toList

/-- The index computed by `mapBrightnessToChar`:
`int(float64(brightness) / 255.0 * float64(len(asciiChars)-1))`. -/
def rampIndex (brightness : Nat) : Nat :=
  let scale := F64.div (F64.ofNat brightness) (F64.ofNat 255)
  F64.toInt (F64.mul scale (F64.ofNat (asciiChars.length - 1)))

/-- Go `mapBrightnessToChar(brightness uint8) byte`; `none` is the
index-out-of-range panic of `asciiChars[index]`. -/
def mapBrightnessToChar (brightness : Nat) : Option Char :=
  asciiChars[rampIndex brightness]?

/-- The index of the specification, `floor((brightness / 255) * (rampLength - 1))`,
in exact arithmetic. -/
def specIndex (brightness : ℚ) : Nat :=
  ⌊(brightness / 255) * ((asciiChars.length : ℚ) - 1)⌋₊

/-! ## Colours and images -/

/-- Go `color.RGBA`: alpha-premultiplied 8-bit channels. -/
structure RGBA where
  R : Nat
  G : Nat
  B : Nat
  A : Nat
deriving DecidableEq, Repr

/-- A Go `color.Color`: either a `color.RGBA` value, or a colour of another
type, known through the four `uint32` results of its method `RGBA()`. -/
inductive Color where
  | rgba (c : RGBA)
  | other (r g b a : Nat)
deriving DecidableEq, Repr

/-- The method `RGBA()` of a colour: `(r, g, b, a)`. For `color.RGBA` each
channel is `r = uint32(c.R); r |= r << 8`. -/
def Color.RGBA : Color → Nat × Nat × Nat × Nat
  | .rgba c => (c.R ||| (c.R <<< 8), c.G ||| (c.G <<< 8), c.B ||| (c.B <<< 8), c.A ||| (c.A <<< 8))
  | .other r g b a => (r, g, b, a)

/-- Go `color.RGBAModel.Convert`: a `color.RGBA` is returned as it is, any
other colour becomes `RGBA{uint8(r >> 8), uint8(g >> 8), uint8(b >> 8), uint8(a >> 8)}`. -/
def rgbaModel : Color → RGBA
  | .rgba c => c
  | .other r g b a => ⟨(r >>> 8) % 256, (g >>> 8) % 256, (b >>> 8) % 256, (a >>> 8) % 256⟩

/-- Go `image.Point`. -/
structure Point where
  X : Int
  Y : Int
deriving DecidableEq, Repr

/-- Go `image.Rectangle`: the points with `Min.X ≤ x < Max.X`, `Min.Y ≤ y < Max.Y`. -/
structure Rectangle where
  Min : Point
  Max : Point
deriving DecidableEq, Repr

/-- Go `Rectangle.Dx`. -/
def Rectangle.Dx (r : Rectangle) : Int := r.Max.X - r.Min.X

/-- Go `Rectangle.Dy`. -/
def Rectangle.Dy (r : Rectangle) : Int := r.Max.Y - r.Min.Y

/-- Go `Point.In`. -/
def Point.In (p : Point) (r : Rectangle) : Bool :=
  decide (r.Min.X ≤ p.X) && decide (p.X < r.Max.X) && decide (r.Min.Y ≤ p.Y) && decide (p.Y < r.Max.Y)

/-- Go `image.Image` (the interface): bounds and a colour accessor. -/
structure Image where
  Bounds : Rectangle
  At : Int → Int → Color

/-- Go `*image.RGBA`: an in-memory image of `color.RGBA` pixels. -/
structure RGBAImage where
  Pix : Int → Int → RGBA
  Rect : Rectangle

/-- Go `image.NewRGBA`: all pixels zero. (It panics on a rectangle of negative
or huge size; the bounds of an existing image are neither.) -/
def NewRGBA (r : Rectangle) : RGBAImage := ⟨fun _ _ => ⟨0, 0, 0, 0⟩, r⟩

/-- Go `(*image.RGBA).RGBAAt`: the zero colour outside the rectangle. -/
def RGBAImage.RGBAAt (p : RGBAImage) (x y : Int) : RGBA :=
  if Point.In ⟨x, y⟩ p.Rect then p.Pix x y else ⟨0, 0, 0, 0⟩

/-- Go `(*image.RGBA).Set`: nothing outside the rectangle, else the converted
colour is stored at `(x, y)`. -/
def RGBAImage.Set (p : RGBAImage) (x y : Int) (c : Color) : RGBAImage :=
  if Point.In ⟨x, y⟩ p.Rect then
    { p with Pix := fun x1 y1 => if x1 = x ∧ y1 = y then rgbaModel c else p.Pix x1 y1 }
  else p

/-- An `*image.RGBA` seen through the interface `image.Image`. -/
def RGBAImage.toImage (p : RGBAImage) : Image :=
  ⟨p.Rect, fun x y => Color.rgba (p.RGBAAt x y)⟩

/-- The channels of a `color.RGBA` are `uint8` values. -/
def RGBA.valid (c : RGBA) : Prop := c.R < 256 ∧ c.G < 256 ∧ c.B < 256 ∧ c.A < 256

/-- All pixels of an `*image.RGBA` hold `uint8` channels. -/
def RGBAImage.valid (p : RGBAImage) : Prop := ∀ x y : Int, (p.Pix x y).valid

/-- A 1x1 opaque image whose pixel is `(88, 88, 87, 255)`. -/
def onePixel : RGBAImage := ⟨fun _ _ => ⟨88, 88, 87, 255⟩, ⟨⟨0, 0⟩, ⟨1, 1⟩⟩⟩

/-- A 3x5 opaque image of one colour. -/
def smallImage : RGBAImage := ⟨fun _ _ => ⟨10, 20, 30, 255⟩, ⟨⟨0, 0⟩, ⟨3, 5⟩⟩⟩

/-- A 164x82 image of one colour, the size to which a 200x100 image is resized. -/
def resizedSample : RGBAImage := ⟨fun _ _ => ⟨128, 128, 128, 255⟩, ⟨⟨0, 0⟩, ⟨164, 82⟩⟩⟩

/-- A 1x1 opaque image whose pixel is `(241, 241, 241, 255)`. -/
def nearWhitePixel : RGBAImage := ⟨fun _ _ => ⟨241, 241, 241, 255⟩, ⟨⟨0, 0⟩, ⟨1, 1⟩⟩⟩

/-- A 2x2 opaque image whose pixels are `(250, 249, 248, 255)`. -/
def paleImage : RGBAImage := ⟨fun _ _ => ⟨250, 249, 248, 255⟩, ⟨⟨0, 0⟩, ⟨2, 2⟩⟩⟩

/-- A 1x1 image whose pixel is pure white. -/
def whitePixel : RGBAImage := ⟨fun _ _ => ⟨255, 255, 255, 255⟩, ⟨⟨0, 0⟩, ⟨1, 1⟩⟩⟩

/-! ## Loops -/

/-- The Go loop `for i := lo; i < hi; i += step { s = body(i, s) }`, started
at `i` with state `s`. -/
def forLoop {σ : Type} (hi : Int) (step : Nat) (hstep : 0 < step) (body : Int → σ → σ)
    (i : Int) (s : σ) : σ :=
  if i < hi then forLoop hi step hstep body (i + step) (body i s) else s
termination_by (hi - i).toNat
decreasing_by omega

/-! ## `getASCIIArt` -/

/-- The brightness `uint8((r + g + b) / 3 >> 8)` of `getASCIIArt`; `/` and
`>>` have the same precedence in Go and associate to the left, the sum is a
`uint32` sum. -/
def grayOf (c : Color) : Nat :=
  match c.RGBA with
  | (r, g, b, _) => ((((r + g + b) % 2 ^ 32) / 3) >>> 8) % 256

/-- The character of one pixel in `getASCIIArt` when the ramp lookup succeeds
(a space stands for the panic, which `grayOf` never triggers). -/
def pixelChar (c : Color) : Char := asciiChars.getD (rampIndex (grayOf c)) ' '

/-- The inner loop of `getASCIIArt`: the line of row `y`. -/
def asciiLine (img : Image) (y : Int) : Option (List Char) :=
  forLoop img.Bounds.Max.X 1 (by decide)
    (fun x line => line.bind fun l =>
      (mapBrightnessToChar (grayOf (img.At x y))).map fun ch => l ++ [ch])
    img.Bounds.Min.X (some [])

/-- Go `getASCIIArt(img image.Image) []string`. -/
def getASCIIArt (img : Image) : Option (List (List Char)) :=
  forLoop img.Bounds.Max.Y 2 (by decide)
    (fun y lines => lines.bind fun ls => (asciiLine img y).map fun line => ls ++ [line])
    img.Bounds.Min.Y (some [])

/-! ## `isBackground` and `replaceBackgroundWithGray` -/

/-- Go `isBackground(c color.Color) bool`. The float64 values `R`, `G`, `B`,
the differences `255 - R`, their squares and the sum are integers below
`2^53`, so these operations are exact and are written on `Int`; `math.Sqrt`
rounds, and `255 - threshold` is exactly `15`. -/
def isBackground (c : Color) : Bool :=
  match c.RGBA with
  | (r, g, b, _) =>
    let R : Int := ((r >>> 8 : Nat) : Int)
    let G : Int := ((g >>> 8 : Nat) : Int)
    let B : Int := ((b >>> 8 : Nat) : Int)
    let threshold : Int := 240
    let dist := F64.sqrt ((255 - R) * (255 - R) + (255 - G) * (255 - G) + (255 - B) * (255 - B)).toNat
    F64.lt dist (F64.ofNat (255 - threshold).toNat)

/-- The colour `grayColor` of `replaceBackgroundWithGray`. -/
def grayColor : RGBA := ⟨128, 128, 128, 255⟩

/-- Go `replaceBackgroundWithGray(img image.Image) *image.RGBA`. -/
def replaceBackgroundWithGray (img : Image) : RGBAImage :=
  let bounds := img.Bounds
  forLoop bounds.Max.Y 1 (by decide)
    (fun y rgba =>
      forLoop bounds.Max.X 1 (by decide)
        (fun x rgba =>
          let originalColor := img.At x y
          if isBackground originalColor then rgba.Set x y (Color.rgba grayColor)
          else rgba.Set x y originalColor)
        bounds.Min.X rgba)
    bounds.Min.Y (NewRGBA bounds)

/-- The image `r` is `t` repainted with the colours `T` on the positions `V`
that lie in its rectangle, and is `t` elsewhere. -/
def Paints (T : Int → Int → RGBA) (V : Int → Int → Prop) (t r : RGBAImage) : Prop :=
  r.Rect = t.Rect ∧ ∀ x y : Int,
    (V x y → Point.In ⟨x, y⟩ t.Rect = true → r.Pix x y = T x y) ∧
    (¬ (V x y ∧ Point.In ⟨x, y⟩ t.Rect = true) → r.Pix x y = t.Pix x y)

/-- The colour stored at `(x, y)` by the body of the loops of
`replaceBackgroundWithGray`. -/
def repainted (img : Image) (x y : Int) : RGBA :=
  rgbaModel (if isBackground (img.At x y) then Color.rgba grayColor else img.At x y)

/-! ## `saveAsPNG`: the canvas -/

/-- The size `(imgWidth, imgHeight)` of the canvas `image.Rect(0, 0, imgWidth,
imgHeight)` created by `saveAsPNG`; `none` is the panic of `lines[0]` on an
empty grid. -/
def saveAsPNG_canvas (lines : List (List Char)) : Option (Nat × Nat) :=
  let charWidth := 7
  let charHeight := 13
  match lines[0]? with
  | none => none
  | some l => some (l.length * charWidth, lines.length * charHeight)

/-! ## `main`: the target size -/

/-- Wrap-around of a 64-bit signed result. -/
def wrapInt64 (z : Int) : Int := (z + 2 ^ 63) % 2 ^ 64 - 2 ^ 63

/-- Conversion `uint(x)` of an `int`. -/
def toUint (z : Int) : Nat := (z % 2 ^ 64).toNat

/-- The target size `(newWidth, newHeight)` computed in `main` from
`origWidth` and `origHeight`; `none` is the integer-division-by-zero panic. -/
def main_newSize (origWidth origHeight : Int) : Option (Nat × Nat) :=
  let maxSize : Int := 164
  if origWidth > origHeight then
    if origWidth = 0 then none
    else some (toUint maxSize, toUint (wrapInt64 (Int.tdiv (wrapInt64 (origHeight * maxSize)) origWidth)))
  else
    if origHeight = 0 then none
    else some (toUint (wrapInt64 (Int.tdiv (wrapInt64 (origWidth * maxSize)) origHeight)), toUint maxSize)

/-! ## Paths (`path/filepath` on Unix, `strings`, `fmt`) -/

/-- The path elements between the separators `/` (`"a//b"` gives `a`, the empty
element and `b`). -/
def splitSlash : List Char → List (List Char)
  | [] => [[]]
  | c :: cs =>
    if c = '/' then [] :: splitSlash cs
    else match splitSlash cs with
      | [] => [[c]]
      | h :: t => (c :: h) :: t

/-- Elements joined with the separator `/` (Go `strings.Join(elems, "/")`). -/
def joinSlash : List (List Char) → List Char
  | [] => []
  | [a] => a
  | a :: b :: t => a ++ '/' :: joinSlash (b :: t)

/-- One element in Go `filepath.Clean`: empty elements and `.` are dropped, `..`
removes the element before it, is dropped at the root and kept at the start of
a relative path, any other element is kept. -/
def cleanStep (rooted : Bool) (stack : List (List Char)) (e : List Char) : List (List Char) :=
  if e = [] ∨ e = ['.'] then stack
  else if e = ['.', '.'] then
    match stack.getLast? with
    | some top =>
      if top = ['.', '.'] then (if rooted then stack else stack ++ [e]) else stack.dropLast
    | none => if rooted then stack else stack ++ [e]
  else stack ++ [e]

/-- Go `filepath.Clean` (Unix): the shortest equivalent path; the empty path
and a path that cleans to nothing give `.`. -/
def Clean (path : List Char) : List Char :=
  if path = [] then ['.'] else
  let rooted : Bool := decide (path.head? = some '/')
  let stack := (splitSlash path).foldl (cleanStep rooted) []
  let out := (if rooted then ['/'] else []) ++ joinSlash stack
  if out = [] then ['.'] else out

/-- The scan of Go `filepath.Ext`, from the last byte backwards: `acc` holds
the bytes already passed. -/
def extAux : List Char → List Char → List Char
  | [], _ => []
  | c :: rest, acc =>
    if c = '/' then [] else if c = '.' then '.' :: acc else extAux rest (c :: acc)

/-- Go `filepath.Ext`: the suffix that starts at the last dot of the last
element of the path, empty when there is no dot. -/
def Ext (path : List Char) : List Char := extAux path.reverse []

/-- Go `filepath.Base` (Unix): the last element of the path, after removal of
trailing separators; `.` for the empty path, `/` for a path of separators. -/
def Base (path : List Char) : List Char :=
  if path = [] then ['.'] else
  let e := ((path.reverse.dropWhile (fun c => c == '/')).takeWhile (fun c => c != '/')).reverse
  if e = [] then ['/'] else e

/-- Go `filepath.Dir` (Unix): all but the last element of the path, cleaned. -/
def Dir (path : List Char) : List Char :=
  Clean (path.reverse.dropWhile (fun c => c != '/')).reverse

/-- Go `filepath.Join` (Unix): the elements from the first non-empty one on,
joined with `/` and cleaned; the empty path when all are empty. -/
def Join (elems : List (List Char)) : List Char :=
  match elems.dropWhile (fun e => e == []) with
  | [] => []
  | es => Clean (joinSlash es)

/-- Go `strings.TrimSuffix`. -/
def TrimSuffix (s suffix : List Char) : List Char :=
  if suffix.isSuffixOf s then s.take (s.length - suffix.length) else s

/-- The part of a path after its last separator. -/
def lastElem (p : List Char) : List Char := (p.reverse.takeWhile (fun c => c != '/')).reverse

/-! ## `getAvailableFilename` -/

/-- The path probed in pass `i` of the loop of `getAvailableFilename`:
`filepath.Join(dir, fmt.Sprintf("%s-%d%s", name, i, ext))`. -/
def candidatePath (basePath : List Char) (i : Nat) : List Char :=
  let ext := Ext basePath
  let name := TrimSuffix (Base basePath) ext
  let dir := Dir basePath
  let newName := name ++ '-' :: (Nat.toDigits 10 i ++ ext)
  Join [dir, newName]

/-- The answer of `os.Stat(path)` as `getAvailableFilename` tests it: no
error (the path exists), an error for which `os.IsNotExist` is true, or any
other error (ENOTDIR, ENAMETOOLONG, EACCES, ...), for which `os.IsNotExist`
is false. -/
inductive StatResult where
  | found
  | notExist
  | otherError
deriving DecidableEq, Repr

/-- The loop `for i := 1; ; i++` of `getAvailableFilename`, from pass `i` on,
with at most `fuel` passes; `stat` gives the answers of `os.Stat`. A pass
returns its path only when `os.IsNotExist(err)` holds. -/
def probe (stat : List Char → StatResult) (basePath : List Char) :
    Nat → Nat → Option (List Char)
  | 0, _ => none
  | fuel + 1, i =>
    if stat (candidatePath basePath i) = StatResult.notExist then some (candidatePath basePath i)
    else probe stat basePath fuel (i + 1)

/-- Go `getAvailableFilename(basePath string) string` on a file system whose
answers to `os.Stat` are `stat`; `none` when the loop needs more than `fuel`
passes. -/
def getAvailableFilename (stat : List Char → StatResult) (fuel : Nat) (basePath : List Char) :
    Option (List Char) :=
  if stat basePath = StatResult.notExist then some basePath else probe stat basePath fuel 1

/-- The file system of the specification: the paths of the set `E` exist, and
`os.Stat` answers "not exist" for every other path. -/
def statOfSet (E : List (List Char)) (path : List Char) : StatResult :=
  if path ∈ E then StatResult.found else StatResult.notExist

/-- A file system on which the paths of `E` exist and a file name holds at
most 255 bytes (NAME_MAX): `os.Stat` of a path with a longer element fails
with ENAMETOOLONG. -/
def statNameMax (E : List (List Char)) (path : List Char) : StatResult :=
  if (splitSlash path).any (fun e => decide (255 < e.length)) then StatResult.otherError
  else if path ∈ E then StatResult.found else StatResult.notExist

/-- The answers of `os.Stat` in a working directory where `output` is a
regular file, for the relative paths `output` and `output/...` that
`getAvailableFilename` probes: the file exists and a path below it fails with
ENOTDIR. A path of another form is not probed and is taken not to exist. -/
def statOutputFile (path : List Char) : StatResult :=
  if "output/".toList.isPrefixOf path then StatResult.otherError
  else if path = "output".toList then StatResult.found else StatResult.notExist

/-- The output path of an input file whose name has 249 bytes: its file name
`ascii-aaa...a.png` has 255 bytes. -/
def longBase : List Char := "output/ascii-".toList ++ (List.replicate 245 'a' ++ ".png".toList)

/-! ## Lemmas on loops -/

/-- Number of passes of `for i := lo; i < hi; i += step`. -/
theorem loopCount_succ (m step : Nat) (hstep : 0 < step) (hm : 0 < m) :
    (m + step - 1) / step = (m - step + step - 1) / step + 1 := by
  by_cases h : step ≤ m
  · have e1 : m + step - 1 = (m - 1) + step := by omega
    have e2 : m - step + step - 1 = m - 1 := by omega
    rw [e1, e2, Nat.add_div_right _ hstep]
  · have e2 : m - step + step - 1 = step - 1 := by omega
    rw [e2, Nat.div_eq_of_lt (by omega : step - 1 < step)]
    have e1 : m + step - 1 = (m - 1) + step := by omega
    rw [e1, Nat.add_div_right _ hstep, Nat.div_eq_of_lt (by omega : m - 1 < step)]

/-- A Go `for` loop runs its body at `i, i + step, i + 2 step, …`, once for
each of the `ceil((hi - i) / step)` indices below `hi`. -/
theorem forLoop_eq_foldl {σ : Type} (hi : Int) (step : Nat) (hstep : 0 < step)
    (body : Int → σ → σ) (i : Int) (s : σ) :
    forLoop hi step hstep body i s =
      (List.range (((hi - i).toNat + step - 1) / step)).foldl
        (fun (t : σ) (k : Nat) => body (i + (step : Int) * (k : Int)) t) s := by
  generalize hn : (hi - i).toNat = n
  induction n using Nat.strong_induction_on generalizing i s with
  | _ n ih =>
    unfold forLoop
    by_cases hlt : i < hi
    · rw [if_pos hlt]
      have hpos : 0 < n := by omega
      rw [ih ((hi - (i + (step : Int))).toNat) (by omega) (i + (step : Int)) (body i s) rfl]
      have e : (hi - (i + (step : Int))).toNat = n - step := by omega
      rw [e, loopCount_succ n step hstep hpos, List.range_succ_eq_map, List.foldl_cons,
        List.foldl_map]
      simp only [Nat.cast_ofNat, Int.Nat.cast_ofNat_Int, Nat.cast_zero, mul_zero, add_zero,
        Nat.cast_succ]
      congr 1
      funext t k
      congr 1
      ring
    · rw [if_neg hlt]
      have h0 : n = 0 := by omega
      subst h0
      have : (0 + step - 1) / step = 0 := Nat.div_eq_of_lt (by omega)
      rw [this]
      rfl

/-! ## Lemmas on the ramp index -/

set_option maxRecDepth 100000 in
/-- On every `uint8` brightness the float64 computation of the index gives
exactly `floor(brightness * 58 / 255)`. -/
theorem rampIndex_eq_floor : ∀ b : Nat, b < 256 → rampIndex b = b * 58 / 255 := by
  decide

/-- On every `uint8` brightness the index is inside the ramp. -/
theorem rampIndex_lt (b : Nat) (hb : b < 256) : rampIndex b < asciiChars.length := by
  rw [rampIndex_eq_floor b hb]
  have : asciiChars.length = 59 := by decide
  omega

/-- The formula `floor((v / 255) * (len - 1))` of the specification, in
exact arithmetic, is `v * 58 / 255`. -/
theorem specIndex_eq (v : Nat) : specIndex (v : ℚ) = v * 58 / 255 := by
  unfold specIndex
  have hlen : asciiChars.length = 59 := by decide
  rw [hlen]
  have e : ((v : ℚ) / 255) * (((59 : ℕ) : ℚ) - 1) = ((v * 58 : ℕ) : ℚ) / ((255 : ℕ) : ℚ) := by
    push_cast
    ring
  rw [e, Nat.floor_div_eq_div]

/-- The brightness is a `uint8`. -/
theorem grayOf_lt (c : Color) : grayOf c < 256 := by
  unfold grayOf
  exact Nat.mod_lt _ (by decide)

/-- The ramp lookup never panics on the brightness of a pixel. -/
theorem mapBrightnessToChar_grayOf (c : Color) :
    mapBrightnessToChar (grayOf c) = some (pixelChar c) := by
  unfold mapBrightnessToChar pixelChar
  have h := rampIndex_lt (grayOf c) (grayOf_lt c)
  rw [List.getElem?_eq_getElem h, List.getD_eq_getElem _ _ h]

/-- A loop that appends one successfully computed item per pass. -/
theorem foldl_bind_append {α : Type} (f : Nat → Option α) (g : Nat → α)
    (hf : ∀ k, f k = some (g k)) (l : List Nat) (acc : List α) :
    l.foldl (fun (t : Option (List α)) (k : Nat) =>
        t.bind fun r => (f k).map fun a => r ++ [a]) (some acc) =
      some (acc ++ l.map g) := by
  induction l generalizing acc with
  | nil => simp
  | cons k t ih =>
    rw [List.foldl_cons]
    have : ((some acc : Option (List α)).bind fun r => (f k).map fun a => r ++ [a]) =
        some (acc ++ [g k]) := by
      simp [hf k]
    rw [this, ih]
    simp

/-- The line of row `y`: one ramp character for each column of the bounds. -/
theorem asciiLine_eq (img : Image) (y : Int) :
    asciiLine img y = some ((List.range img.Bounds.Dx.toNat).map fun (x : Nat) =>
      pixelChar (img.At (img.Bounds.Min.X + (x : Int)) y)) := by
  unfold asciiLine
  rw [forLoop_eq_foldl]
  have hc : ((img.Bounds.Max.X - img.Bounds.Min.X).toNat + 1 - 1) / 1 = img.Bounds.Dx.toNat := by
    simp [Rectangle.Dx]
  rw [hc]
  have h := foldl_bind_append
    (fun k => mapBrightnessToChar (grayOf (img.At (img.Bounds.Min.X + ((1 : Nat) : Int) * (k : Int)) y)))
    (fun k => pixelChar (img.At (img.Bounds.Min.X + ((1 : Nat) : Int) * (k : Int)) y))
    (fun k => mapBrightnessToChar_grayOf _) (List.range img.Bounds.Dx.toNat) []
  rw [h]
  simp

/-- The grid of `getASCIIArt`: the lines of the rows `Min.Y, Min.Y + 2, …`. -/
theorem getASCIIArt_eq (img : Image) :
    getASCIIArt img = some ((List.range ((img.Bounds.Dy.toNat + 1) / 2)).map fun (k : Nat) =>
      (List.range img.Bounds.Dx.toNat).map fun (x : Nat) =>
        pixelChar (img.At (img.Bounds.Min.X + (x : Int)) (img.Bounds.Min.Y + 2 * (k : Int)))) := by
  unfold getASCIIArt
  rw [forLoop_eq_foldl]
  have hc : ((img.Bounds.Max.Y - img.Bounds.Min.Y).toNat + 2 - 1) / 2 =
      (img.Bounds.Dy.toNat + 1) / 2 := by
    simp [Rectangle.Dy]
  rw [hc]
  have h := foldl_bind_append
    (fun k => asciiLine img (img.Bounds.Min.Y + ((2 : Nat) : Int) * (k : Int)))
    (fun k => (List.range img.Bounds.Dx.toNat).map fun (x : Nat) =>
      pixelChar (img.At (img.Bounds.Min.X + (x : Int)) (img.Bounds.Min.Y + ((2 : Nat) : Int) * (k : Int))))
    (fun k => asciiLine_eq img _) (List.range ((img.Bounds.Dy.toNat + 1) / 2)) []
  rw [h]
  simp

/-- The number `ceil(H / 2)`. -/
theorem ceil_half (H : Nat) : ⌈(H : ℚ) / 2⌉₊ = (H + 1) / 2 := by
  rcases Nat.even_or_odd' H with ⟨m, rfl | rfl⟩
  · have e : ((2 * m : ℕ) : ℚ) / 2 = (m : ℚ) := by
      push_cast
      ring
    rw [e, Nat.ceil_natCast]
    omega
  · have h2 : (2 * m + 1 + 1) / 2 = m + 1 := by omega
    rw [h2, Nat.ceil_eq_iff (by omega)]
    constructor
    · rw [Nat.add_sub_cancel]
      push_cast
      linarith
    · push_cast
      linarith

set_option maxRecDepth 100000 in
/-- The accessor of `color.RGBA` returns 257 times the 8-bit channel. -/
theorem or_shift_eq : ∀ v : Nat, v < 256 → v ||| (v <<< 8) = 257 * v := by
  decide

/-- The brightness of a `color.RGBA` pixel in terms of its 8-bit channels. -/
theorem grayOf_rgba (c : RGBA) (hc : c.valid) :
    grayOf (Color.rgba c) = (257 * c.R + 257 * c.G + 257 * c.B) / 3 / 256 := by
  obtain ⟨hR, hG, hB, _⟩ := hc
  simp only [grayOf, Color.RGBA, or_shift_eq _ hR, or_shift_eq _ hG, or_shift_eq _ hB,
    Nat.shiftRight_eq_div_pow]
  have h1 : (257 * c.R + 257 * c.G + 257 * c.B) % 2 ^ 32 = 257 * c.R + 257 * c.G + 257 * c.B :=
    Nat.mod_eq_of_lt (by omega)
  rw [h1]
  exact Nat.mod_eq_of_lt (by omega)

/-- Inside its rectangle an `*image.RGBA` returns the stored pixel. -/
theorem toImage_At (p : RGBAImage) (x y : Int) (hx0 : p.Rect.Min.X ≤ x) (hx1 : x < p.Rect.Max.X)
    (hy0 : p.Rect.Min.Y ≤ y) (hy1 : y < p.Rect.Max.Y) :
    p.toImage.At x y = Color.rgba (p.Pix x y) := by
  simp [RGBAImage.toImage, RGBAImage.RGBAAt, Point.In, hx0, hx1, hy0, hy1]

/-- The image `onePixel` holds 8-bit channels. -/
theorem onePixel_valid : onePixel.valid := by
  intro x y
  simp [RGBA.valid, onePixel]

/-- The image `smallImage` holds 8-bit channels. -/
theorem smallImage_valid : smallImage.valid := by
  intro x y
  simp [RGBA.valid, smallImage]

/-- A 64-bit result inside the range is not changed by the wrap-around. -/
theorem wrapInt64_of_lt (n : Nat) (hn : n < 2 ^ 63) : wrapInt64 (n : Int) = (n : Int) := by
  unfold wrapInt64
  have h : (2 : Int) ^ 63 = 9223372036854775808 := by norm_num
  have h2 : (2 : Int) ^ 64 = 18446744073709551616 := by norm_num
  have h3 : (2 : Nat) ^ 63 = 9223372036854775808 := by norm_num
  rw [h, h2]
  rw [h3] at hn
  omega

/-- The conversion `uint(x)` of a non-negative `int`. -/
theorem toUint_natCast (n : Nat) (hn : n < 2 ^ 63) : toUint (n : Int) = n := by
  unfold toUint
  have h2 : (2 : Int) ^ 64 = 18446744073709551616 := by norm_num
  have h3 : (2 : Nat) ^ 63 = 9223372036854775808 := by norm_num
  rw [h2]
  rw [h3] at hn
  omega

/-- The scaled side `uint(a * 164 / b)` computed in `main`, for sides below `2^31`. -/
theorem scaledSide_eq (a b : Nat) (ha : a < 2 ^ 31) :
    toUint (wrapInt64 (Int.tdiv (wrapInt64 ((a : Int) * 164)) (b : Int))) = a * 164 / b := by
  have h31 : (2 : Nat) ^ 31 = 2147483648 := by norm_num
  have h63 : (2 : Nat) ^ 63 = 9223372036854775808 := by norm_num
  rw [h31] at ha
  have e1 : ((a : Int) * 164) = ((a * 164 : Nat) : Int) := by push_cast; ring
  have hlt : a * 164 < 2 ^ 63 := by rw [h63]; omega
  have hq : a * 164 / b < 2 ^ 63 := lt_of_le_of_lt (Nat.div_le_self _ _) hlt
  rw [e1, wrapInt64_of_lt _ hlt, Int.tdiv_eq_ediv (Int.natCast_nonneg _) (Int.natCast_nonneg _),
    ← Int.natCast_div, wrapInt64_of_lt _ hq, toUint_natCast _ hq]

/-- The target size of a landscape or square image. -/
theorem newSize_landscape (w h : Nat) (hh : h < 2 ^ 31) (hw : w < 2 ^ 31) (h1 : 1 ≤ h)
    (hle : h ≤ w) : main_newSize (w : Int) (h : Int) = some (164, h * 164 / w) := by
  have h164 : toUint (164 : Int) = 164 := by decide
  unfold main_newSize
  by_cases hlt : (w : Int) > (h : Int)
  · have hw0 : ¬ ((w : Int) = 0) := by omega
    simp only [hlt, if_true, hw0, if_false]
    rw [scaledSide_eq h w hh, h164]
  · have heq : w = h := by omega
    subst heq
    have hw0 : ¬ ((w : Int) = 0) := by omega
    simp only [hlt, if_false, hw0]
    rw [scaledSide_eq w w hw, h164, Nat.mul_div_cancel_left _ (by omega : 0 < w)]

/-! ## Lemmas on `isBackground` -/

set_option maxRecDepth 100000 in
/-- For a sum of squares below 225 the scale of the float64 root is at least `2^49`. -/
theorem sqrt_scale_small : ∀ s : Nat, s < 225 → 49 ≤ 52 - F64.ilog2 s / 2 := by
  decide

/-- The rounded float64 square root of an integer is below 15 exactly when
the integer is below 225. -/
theorem sqrt_lt_15_iff (s : Nat) : F64.lt (F64.sqrt s) (F64.ofNat 15) = true ↔ s < 225 := by
  unfold F64.lt F64.sqrt F64.ofNat
  by_cases hs : s = 0
  · subst hs
    simp
  · simp only [hs, if_false, decide_eq_true_eq, Nat.mul_one]
    generalize hk : 52 - F64.ilog2 s / 2 = k
    have h4 : (4 : ℕ) ^ k = 2 ^ k * 2 ^ k := by
      rw [show (4 : ℕ) = 2 * 2 from rfl, Nat.mul_pow]
    generalize hK : 2 ^ k = K at h4
    rw [h4]
    have hq1 := Nat.sqrt_le (s * (K * K))
    generalize hq : Nat.sqrt (s * (K * K)) = q at hq1
    constructor
    · intro hlt
      by_contra hge
      have hge2 : 225 ≤ s := by omega
      have hmono : Nat.sqrt ((15 * K) * (15 * K)) ≤ Nat.sqrt (s * (K * K)) := by
        apply Nat.sqrt_le_sqrt
        nlinarith [Nat.zero_le (K * K)]
      rw [Nat.sqrt_eq, hq] at hmono
      split_ifs at hlt <;> omega
    · intro hlt
      have hk49 : 49 ≤ k := hk ▸ sqrt_scale_small s hlt
      have hKge : 2 ^ 49 ≤ K := hK ▸ Nat.pow_le_pow_right (by decide) hk49
      have hK30 : 30 ≤ K := le_trans (by norm_num) hKge
      have hqlt : q + 1 < 15 * K := by
        by_contra hcon
        have hcon2 : 15 * K ≤ q + 1 := by omega
        have h1 : (15 * K) * (15 * K) ≤ (q + 1) * (q + 1) := Nat.mul_le_mul hcon2 hcon2
        have h2 : q * q ≤ 224 * (K * K) := by nlinarith
        have h3 : q ≤ 15 * K := by
          by_contra h3
          have : 15 * K + 1 ≤ q := by omega
          nlinarith
        nlinarith
      split_ifs <;> omega

/-- The 8-bit channel is recovered from the accessor by `>> 8`. -/
theorem accessor_shift (v : Nat) (hv : v < 256) : (v ||| (v <<< 8)) >>> 8 = v := by
  rw [or_shift_eq v hv, Nat.shiftRight_eq_div_pow]
  omega

/-- On a `color.RGBA` pixel `isBackground` tests the sum of the squared
distances of the channels from 255 against `225 = 15^2`. -/
theorem isBackground_rgba (c : RGBA) (hc : c.valid) :
    isBackground (Color.rgba c) =
      decide ((255 - c.R) ^ 2 + (255 - c.G) ^ 2 + (255 - c.B) ^ 2 < 225) := by
  obtain ⟨hR, hG, hB, _⟩ := hc
  simp only [isBackground, Color.RGBA, accessor_shift _ hR, accessor_shift _ hG,
    accessor_shift _ hB]
  have e : ((255 - (c.R : Int)) * (255 - (c.R : Int)) + (255 - (c.G : Int)) * (255 - (c.G : Int))
      + (255 - (c.B : Int)) * (255 - (c.B : Int))).toNat
      = (255 - c.R) ^ 2 + (255 - c.G) ^ 2 + (255 - c.B) ^ 2 := by
    have e1 : (255 - (c.R : Int)) = ((255 - c.R : Nat) : Int) := by omega
    have e2 : (255 - (c.G : Int)) = ((255 - c.G : Nat) : Int) := by omega
    have e3 : (255 - (c.B : Int)) = ((255 - c.B : Nat) : Int) := by omega
    rw [e1, e2, e3, pow_two, pow_two, pow_two]
    have : (((255 - c.R : Nat) : Int) * ((255 - c.R : Nat) : Int)
        + ((255 - c.G : Nat) : Int) * ((255 - c.G : Nat) : Int)
        + ((255 - c.B : Nat) : Int) * ((255 - c.B : Nat) : Int))
        = (((255 - c.R) * (255 - c.R) + (255 - c.G) * (255 - c.G)
          + (255 - c.B) * (255 - c.B) : Nat) : Int) := by
      push_cast
      ring
    rw [this, Int.toNat_natCast]
  have e15 : ((255 : Int) - 240).toNat = 15 := by decide
  rw [e, e15]
  rcases h : decide ((255 - c.R) ^ 2 + (255 - c.G) ^ 2 + (255 - c.B) ^ 2 < 225) with _ | _
  · have h1 : ¬ ((255 - c.R) ^ 2 + (255 - c.G) ^ 2 + (255 - c.B) ^ 2 < 225) := by
      simpa using h
    cases hb : F64.lt (F64.sqrt ((255 - c.R) ^ 2 + (255 - c.G) ^ 2 + (255 - c.B) ^ 2)) (F64.ofNat 15)
    · rfl
    · exact absurd ((sqrt_lt_15_iff _).1 hb) h1
  · have h1 : (255 - c.R) ^ 2 + (255 - c.G) ^ 2 + (255 - c.B) ^ 2 < 225 := by
      simpa using h
    exact (sqrt_lt_15_iff _).2 h1

/-- The effect of one `Set`. -/
theorem set_paints (t : RGBAImage) (x y : Int) (c : Color) (T : Int → Int → RGBA)
    (hT : T x y = rgbaModel c) :
    Paints T (fun x1 y1 => x1 = x ∧ y1 = y) t (t.Set x y c) := by
  unfold Paints RGBAImage.Set
  by_cases hin : Point.In ⟨x, y⟩ t.Rect = true
  · rw [if_pos hin]
    refine ⟨rfl, fun x1 y1 => ⟨?_, ?_⟩⟩
    · rintro ⟨rfl, rfl⟩ _
      simp [hT]
    · intro hn
      have : ¬ (x1 = x ∧ y1 = y) := by
        rintro ⟨rfl, rfl⟩
        exact hn ⟨⟨rfl, rfl⟩, hin⟩
      simp [this]
  · rw [if_neg hin]
    refine ⟨rfl, fun x1 y1 => ⟨?_, fun _ => rfl⟩⟩
    rintro ⟨rfl, rfl⟩ h
    exact absurd h hin

/-- A loop whose passes repaint positions with the colours `T` repaints the
union of these positions. -/
theorem foldl_paints {ι : Type} (T : Int → Int → RGBA) (V : ι → Int → Int → Prop)
    (step : RGBAImage → ι → RGBAImage) (hstep : ∀ t i, Paints T (V i) t (step t i))
    (l : List ι) (t : RGBAImage) :
    Paints T (fun x y => ∃ i ∈ l, V i x y) t (l.foldl step t) := by
  induction l generalizing t with
  | nil =>
    refine ⟨rfl, fun x y => ⟨?_, fun _ => rfl⟩⟩
    rintro ⟨i, hi, _⟩
    simp at hi
  | cons a l ih =>
    rw [List.foldl_cons]
    obtain ⟨hr1, hp1⟩ := hstep t a
    obtain ⟨hr2, hp2⟩ := ih (step t a)
    refine ⟨hr2.trans hr1, fun x y => ⟨?_, ?_⟩⟩
    · rintro ⟨i, hi, hV⟩ hin
      rw [← hr1] at hin
      by_cases hl : ∃ j ∈ l, V j x y
      · exact (hp2 x y).1 hl hin
      · rw [(hp2 x y).2 (fun h => hl h.1)]
        rcases List.mem_cons.1 hi with rfl | hi2
        · rw [hr1] at hin
          exact (hp1 x y).1 hV hin
        · exact absurd ⟨i, hi2, hV⟩ hl
    · intro hn
      have h2 : ¬ ((∃ j ∈ l, V j x y) ∧ Point.In ⟨x, y⟩ (step t a).Rect = true) := by
        rintro ⟨⟨j, hj, hV⟩, hin⟩
        rw [hr1] at hin
        exact hn ⟨⟨j, List.mem_cons_of_mem _ hj, hV⟩, hin⟩
      have h1 : ¬ (V a x y ∧ Point.In ⟨x, y⟩ t.Rect = true) := by
        rintro ⟨hV, hin⟩
        exact hn ⟨⟨a, List.mem_cons_self _ _, hV⟩, hin⟩
      rw [(hp2 x y).2 h2, (hp1 x y).2 h1]

/-- One pass of the inner loop of `replaceBackgroundWithGray`. -/
theorem body_paints (img : Image) (t : RGBAImage) (x y : Int) :
    Paints (repainted img) (fun x1 y1 => x1 = x ∧ y1 = y) t
      (if isBackground (img.At x y) then t.Set x y (Color.rgba grayColor)
        else t.Set x y (img.At x y)) := by
  by_cases hb : isBackground (img.At x y) = true
  · rw [if_pos hb]
    exact set_paints t x y _ _ (by simp [repainted, hb])
  · rw [if_neg hb]
    exact set_paints t x y _ _ (by simp [repainted, hb])

/-- The image returned by `replaceBackgroundWithGray`: the bounds of the
input, and inside them the repainted colour of every pixel. -/
theorem replaceBackgroundWithGray_eq (img : Image) :
    (replaceBackgroundWithGray img).Rect = img.Bounds ∧
    ∀ x y : Int, Point.In ⟨x, y⟩ img.Bounds = true →
      (replaceBackgroundWithGray img).Pix x y = repainted img x y := by
  unfold replaceBackgroundWithGray
  simp only [forLoop_eq_foldl]
  have hinner : ∀ (t : RGBAImage) (k : Nat),
      Paints (repainted img)
        (fun x1 y1 => ∃ j ∈ List.range (((img.Bounds.Max.X - img.Bounds.Min.X).toNat + 1 - 1) / 1),
          x1 = img.Bounds.Min.X + ((1 : Nat) : Int) * (j : Int) ∧
          y1 = img.Bounds.Min.Y + ((1 : Nat) : Int) * (k : Int)) t
        ((List.range (((img.Bounds.Max.X - img.Bounds.Min.X).toNat + 1 - 1) / 1)).foldl
          (fun (t : RGBAImage) (k_1 : Nat) =>
            if isBackground (img.At (img.Bounds.Min.X + ((1 : Nat) : Int) * (k_1 : Int))
                (img.Bounds.Min.Y + ((1 : Nat) : Int) * (k : Int))) = true
            then t.Set (img.Bounds.Min.X + ((1 : Nat) : Int) * (k_1 : Int))
                (img.Bounds.Min.Y + ((1 : Nat) : Int) * (k : Int)) (Color.rgba grayColor)
            else t.Set (img.Bounds.Min.X + ((1 : Nat) : Int) * (k_1 : Int))
                (img.Bounds.Min.Y + ((1 : Nat) : Int) * (k : Int))
                (img.At (img.Bounds.Min.X + ((1 : Nat) : Int) * (k_1 : Int))
                  (img.Bounds.Min.Y + ((1 : Nat) : Int) * (k : Int)))) t) := by
    intro t k
    exact foldl_paints (repainted img)
      (fun (j : Nat) x1 y1 => x1 = img.Bounds.Min.X + ((1 : Nat) : Int) * (j : Int) ∧
          y1 = img.Bounds.Min.Y + ((1 : Nat) : Int) * (k : Int)) _
      (fun t j => body_paints img t _ _) _ t
  have houter := foldl_paints (repainted img) _ _ hinner
    (List.range (((img.Bounds.Max.Y - img.Bounds.Min.Y).toNat + 1 - 1) / 1)) (NewRGBA img.Bounds)
  obtain ⟨hrect, hpix⟩ := houter
  refine ⟨hrect, fun x y hin => ?_⟩
  apply (hpix x y).1 _ hin
  simp only [Point.In, Bool.and_eq_true, decide_eq_true_eq] at hin
  obtain ⟨⟨⟨hx0, hx1⟩, hy0⟩, hy1⟩ := hin
  refine ⟨(y - img.Bounds.Min.Y).toNat, ?_, (x - img.Bounds.Min.X).toNat, ?_, ?_, ?_⟩
  · rw [List.mem_range]
    omega
  · rw [List.mem_range]
    omega
  · omega
  · omega

/-- The image `nearWhitePixel` holds 8-bit channels. -/
theorem nearWhitePixel_valid : nearWhitePixel.valid := by
  intro x y
  simp [RGBA.valid, nearWhitePixel]

/-- The image `paleImage` holds 8-bit channels. -/
theorem paleImage_valid : paleImage.valid := by
  intro x y
  simp [RGBA.valid, paleImage]

/-- The pixel written by `replaceBackgroundWithGray` at a position inside an
8-bit RGBA image. -/
theorem replace_RGBAAt (p : RGBAImage) (hp : p.valid) (x y : Int)
    (hin : Point.In ⟨x, y⟩ p.Rect = true) :
    (replaceBackgroundWithGray p.toImage).RGBAAt x y =
      if (255 - (p.Pix x y).R) ^ 2 + (255 - (p.Pix x y).G) ^ 2 + (255 - (p.Pix x y).B) ^ 2 < 225
      then grayColor else p.Pix x y := by
  obtain ⟨hrect, hpix⟩ := replaceBackgroundWithGray_eq p.toImage
  have hb : p.toImage.Bounds = p.Rect := rfl
  have hAt : p.toImage.At x y = Color.rgba (p.Pix x y) := by
    simp [RGBAImage.toImage, RGBAImage.RGBAAt, hin]
  unfold RGBAImage.RGBAAt
  rw [hrect, hb, if_pos hin, hpix x y (hb ▸ hin)]
  unfold repainted
  rw [hAt, isBackground_rgba _ (hp x y)]
  by_cases h : (255 - (p.Pix x y).R) ^ 2 + (255 - (p.Pix x y).G) ^ 2 + (255 - (p.Pix x y).B) ^ 2 < 225
  · simp [h, rgbaModel]
  · simp [h, rgbaModel]

/-- The Euclidean distance from white is below 15 exactly when the sum of the
squares is below 225. -/
theorem dist_lt_15_iff (c : RGBA) (hc : c.valid) :
    Real.sqrt (((255 : ℝ) - c.R) ^ 2 + ((255 : ℝ) - c.G) ^ 2 + ((255 : ℝ) - c.B) ^ 2) < 15 ↔
      (255 - c.R) ^ 2 + (255 - c.G) ^ 2 + (255 - c.B) ^ 2 < 225 := by
  obtain ⟨hR, hG, hB, _⟩ := hc
  have e : ((255 : ℝ) - c.R) ^ 2 + ((255 : ℝ) - c.G) ^ 2 + ((255 : ℝ) - c.B) ^ 2
      = (((255 - c.R) ^ 2 + (255 - c.G) ^ 2 + (255 - c.B) ^ 2 : ℕ) : ℝ) := by
    push_cast [Nat.cast_sub (by omega : c.R ≤ 255), Nat.cast_sub (by omega : c.G ≤ 255),
      Nat.cast_sub (by omega : c.B ≤ 255)]
    ring
  rw [e, Real.sqrt_lt' (by norm_num : (0 : ℝ) < 15)]
  have : ((15 : ℝ)) ^ 2 = ((225 : ℕ) : ℝ) := by norm_num
  rw [this, Nat.cast_lt]

/-! ## Lemmas on paths -/

/-- A string without separator is a single path element. -/
theorem splitSlash_slashfree (B : List Char) (hB : ∀ c ∈ B, c ≠ '/') : splitSlash B = [B] := by
  induction B with
  | nil => rfl
  | cons c cs ih =>
    have hc : c ≠ '/' := hB c (List.mem_cons_self _ _)
    have hcs : ∀ d ∈ cs, d ≠ '/' := fun d hd => hB d (List.mem_cons_of_mem _ hd)
    simp [splitSlash, hc, ih hcs]

/-- Appending a string without separator to a path lengthens its last element. -/
theorem splitSlash_append (A : List Char) :
    ∃ (I : List (List Char)) (l : List Char), splitSlash A = I ++ [l] ∧
      ∀ B : List Char, (∀ c ∈ B, c ≠ '/') → splitSlash (A ++ B) = I ++ [l ++ B] := by
  induction A with
  | nil =>
    exact ⟨[], [], rfl, fun B hB => by simpa using splitSlash_slashfree B hB⟩
  | cons c cs ih =>
    obtain ⟨I, l, h1, h2⟩ := ih
    by_cases hc : c = '/'
    · refine ⟨[] :: I, l, by simp [splitSlash, hc, h1], fun B hB => ?_⟩
      simp [splitSlash, hc, h2 B hB]
    · cases I with
      | nil =>
        refine ⟨[], c :: l, by simp [splitSlash, hc, h1], fun B hB => ?_⟩
        have := h2 B hB
        simp only [List.nil_append] at this
        simp [splitSlash, hc, this]
      | cons h t =>
        refine ⟨(c :: h) :: t, l, by simp [splitSlash, hc, h1], fun B hB => ?_⟩
        have := h2 B hB
        simp only [List.cons_append] at this
        simp [splitSlash, hc, this]

/-- Joining after one more element. -/
theorem joinSlash_append_singleton (S : List (List Char)) (L : List Char) :
    joinSlash (S ++ [L]) = (if S = [] then [] else joinSlash S ++ ['/']) ++ L := by
  induction S with
  | nil => simp [joinSlash]
  | cons a t ih =>
    cases t with
    | nil => simp [joinSlash]
    | cons b u =>
      have e : (a :: b :: u) ++ [L] = a :: b :: (u ++ [L]) := rfl
      rw [e, joinSlash]
      have ih2 : joinSlash (b :: (u ++ [L])) = joinSlash (b :: u) ++ ['/'] ++ L := by
        have := ih
        simp only [List.cons_append, reduceCtorEq, if_false] at this
        exact this
      rw [ih2]
      simp [joinSlash]

/-- An element that holds a `-` is kept by `filepath.Clean`. -/
theorem cleanStep_keep (rooted : Bool) (S : List (List Char)) (L : List Char) (hL : '-' ∈ L) :
    cleanStep rooted S L = S ++ [L] := by
  unfold cleanStep
  have h1 : ¬ (L = [] ∨ L = ['.']) := by
    rintro (h | h) <;> simp [h] at hL
  have h2 : ¬ (L = ['.', '.']) := by
    intro h
    simp [h] at hL
  rw [if_neg h1, if_neg h2]

/-- The final step of `filepath.Clean` never gives the empty path. -/
theorem dot_if_empty_ne_nil (o : List Char) : (if o = [] then ['.'] else o) ≠ [] := by
  split_ifs with h
  · simp
  · exact h

/-- A cleaned path is not empty. -/
theorem Clean_ne_nil (p : List Char) : Clean p ≠ [] := by
  unfold Clean
  by_cases hp : p = []
  · simp [hp]
  · simp only [hp, if_false]
    exact dot_if_empty_ne_nil _

/-- The extension found by the scan holds no separator. -/
theorem extAux_slashfree (rest acc : List Char) (hacc : ∀ c ∈ acc, c ≠ '/') :
    ∀ c ∈ extAux rest acc, c ≠ '/' := by
  induction rest generalizing acc with
  | nil => simp [extAux]
  | cons d rest ih =>
    unfold extAux
    by_cases h1 : d = '/'
    · simp [h1]
    · by_cases h2 : d = '.'
      · rw [if_neg h1, if_pos h2]
        intro c hc
        rcases List.mem_cons.1 hc with rfl | hc
        · decide
        · exact hacc c hc
      · rw [if_neg h1, if_neg h2]
        apply ih
        intro c hc
        rcases List.mem_cons.1 hc with rfl | hc
        · exact h1
        · exact hacc c hc

/-- The extension of a path holds no separator. -/
theorem Ext_slashfree (p : List Char) : ∀ c ∈ Ext p, c ≠ '/' :=
  extAux_slashfree _ _ (by simp)

/-- The value of a decimal digit character. -/
theorem digitChar_val : ∀ k : Nat, k < 10 → (Nat.digitChar k).toNat - 48 = k ∧ Nat.digitChar k ≠ '/' := by
  decide

/-- The decimal digits printed for `n` come before the accumulator, hold no
separator, and read back as `n`. -/
theorem toDigitsCore_spec (fuel n : Nat) (ds : List Char) (h : n < fuel) :
    ∃ D : List Char, Nat.toDigitsCore 10 fuel n ds = D ++ ds ∧ (∀ c ∈ D, c ≠ '/') ∧
      D.foldl (fun v c => 10 * v + (c.toNat - 48)) 0 = n := by
  induction fuel generalizing n ds with
  | zero => omega
  | succ fuel ih =>
    have hd := digitChar_val (n % 10) (Nat.mod_lt _ (by decide))
    unfold Nat.toDigitsCore
    by_cases h0 : n / 10 = 0
    · refine ⟨[Nat.digitChar (n % 10)], by simp [h0], by simpa using hd.2, ?_⟩
      simp only [List.foldl_cons, List.foldl_nil, hd.1]
      omega
    · obtain ⟨D, hD, hs, hv⟩ := ih (n / 10) (Nat.digitChar (n % 10) :: ds) (by omega)
      refine ⟨D ++ [Nat.digitChar (n % 10)], by simp [h0, hD], ?_, ?_⟩
      · intro c hc
        rcases List.mem_append.1 hc with hc | hc
        · exact hs c hc
        · simp only [List.mem_singleton] at hc
          rw [hc]
          exact hd.2
      · rw [List.foldl_append, hv]
        simp only [List.foldl_cons, List.foldl_nil, hd.1]
        omega

/-- Decimal printing is injective. -/
theorem toDigits_injective (i j : Nat) (h : Nat.toDigits 10 i = Nat.toDigits 10 j) : i = j := by
  obtain ⟨D1, h1, _, v1⟩ := toDigitsCore_spec (i + 1) i [] (by omega)
  obtain ⟨D2, h2, _, v2⟩ := toDigitsCore_spec (j + 1) j [] (by omega)
  unfold Nat.toDigits at h
  rw [h1, h2, List.append_nil, List.append_nil] at h
  rw [← v1, ← v2, h]

/-- The decimal digits hold no separator. -/
theorem toDigits_slashfree (i : Nat) : ∀ c ∈ Nat.toDigits 10 i, c ≠ '/' := by
  obtain ⟨D1, h1, s1, _⟩ := toDigitsCore_spec (i + 1) i [] (by omega)
  unfold Nat.toDigits
  rw [h1, List.append_nil]
  exact s1

/-- Every probed path is a fixed prefix followed by the decimal digits of the
pass and by the extension. -/
theorem candidatePath_shape (b : List Char) :
    ∃ X : List Char, ∀ i : Nat, candidatePath b i = X ++ (Nat.toDigits 10 i ++ Ext b) := by
  have hdir : Dir b ≠ [] := Clean_ne_nil _
  obtain ⟨I, l, _, hsplit⟩ := splitSlash_append (Dir b ++ '/' :: TrimSuffix (Base b) (Ext b))
  refine ⟨(if decide ((Dir b).head? = some '/') = true then ['/'] else []) ++
    ((if List.foldl (cleanStep (decide ((Dir b).head? = some '/'))) [] I = [] then []
      else joinSlash (List.foldl (cleanStep (decide ((Dir b).head? = some '/'))) [] I) ++ ['/'])
      ++ (l ++ ['-'])), fun i => ?_⟩
  have hB : ∀ c ∈ '-' :: (Nat.toDigits 10 i ++ Ext b), c ≠ '/' := by
    intro c hc
    rcases List.mem_cons.1 hc with rfl | hc
    · decide
    · rcases List.mem_append.1 hc with hc | hc
      · exact toDigits_slashfree i c hc
      · exact Ext_slashfree b c hc
  have hjoin : candidatePath b i =
      Clean ((Dir b ++ '/' :: TrimSuffix (Base b) (Ext b)) ++ '-' :: (Nat.toDigits 10 i ++ Ext b)) := by
    unfold candidatePath Join
    have hne : (Dir b == []) = false := by
      cases hd : Dir b with
      | nil => exact absurd hd hdir
      | cons a t => rfl
    simp [List.dropWhile, hne, joinSlash]
  have hpne : (Dir b ++ '/' :: TrimSuffix (Base b) (Ext b)) ++ '-' :: (Nat.toDigits 10 i ++ Ext b)
      ≠ [] := by simp
  have hhead : ((Dir b ++ '/' :: TrimSuffix (Base b) (Ext b)) ++
      '-' :: (Nat.toDigits 10 i ++ Ext b)).head? = (Dir b).head? := by
    cases hd : Dir b with
    | nil => exact absurd hd hdir
    | cons a t => rfl
  rw [hjoin]
  unfold Clean
  rw [if_neg hpne]
  simp only [hhead, hsplit _ hB, List.foldl_append, List.foldl_cons, List.foldl_nil]
  rw [cleanStep_keep _ _ _ (by simp), joinSlash_append_singleton]
  rw [if_neg (by simp)]
  simp

/-- The probed paths of different passes differ. -/
theorem candidatePath_injective (b : List Char) (i j : Nat)
    (h : candidatePath b i = candidatePath b j) : i = j := by
  obtain ⟨X, hX⟩ := candidatePath_shape b
  rw [hX i, hX j] at h
  exact toDigits_injective i j (List.append_cancel_right (List.append_cancel_left h))

/-- Among the first `|E| + 1` probed paths one is not in `E`. -/
theorem exists_free_candidate (E : List (List Char)) (b : List Char) :
    ∃ i : Nat, 1 ≤ i ∧ i ≤ E.length + 1 ∧ candidatePath b i ∉ E := by
  by_contra hcon
  push_neg at hcon
  have hnodup : ((List.range (E.length + 1)).map fun k => candidatePath b (k + 1)).Nodup := by
    apply List.Nodup.map _ (List.nodup_range _)
    intro x y hxy
    have := candidatePath_injective b _ _ hxy
    omega
  have hsub : ((List.range (E.length + 1)).map fun k => candidatePath b (k + 1)) ⊆ E := by
    intro p hp
    rw [List.mem_map] at hp
    obtain ⟨k, hk, rfl⟩ := hp
    rw [List.mem_range] at hk
    exact hcon (k + 1) (by omega) (by omega)
  have hlen := (List.subperm_of_subset hnodup hsub).length_le
  rw [List.length_map, List.length_range] at hlen
  omega

/-- The loop returns the first probed path for which `os.Stat` answers "not exist". -/
theorem probe_eq (stat : List Char → StatResult) (b : List Char) (fuel s i : Nat) (hsi : s ≤ i)
    (hfuel : i - s < fuel)
    (hbusy : ∀ j, s ≤ j → j < i → stat (candidatePath b j) ≠ StatResult.notExist)
    (hfree : stat (candidatePath b i) = StatResult.notExist) :
    probe stat b fuel s = some (candidatePath b i) := by
  induction fuel generalizing s with
  | zero => omega
  | succ fuel ih =>
    unfold probe
    by_cases hs : s = i
    · subst hs
      rw [if_pos hfree]
    · rw [if_neg (hbusy s le_rfl (by omega))]
      exact ih (s + 1) (by omega) (by omega) (fun j h1 h2 => hbusy j (by omega) h2)

/-- The loop never returns when `os.Stat` answers "not exist" for no probed path. -/
theorem probe_none (stat : List Char → StatResult) (b : List Char)
    (hbusy : ∀ j, stat (candidatePath b j) ≠ StatResult.notExist) (fuel s : Nat) :
    probe stat b fuel s = none := by
  induction fuel generalizing s with
  | zero => rfl
  | succ fuel ih =>
    unfold probe
    rw [if_neg (hbusy s)]
    exact ih (s + 1)

/-- On the file system of the specification a path answers "not exist"
exactly when it is not in `E`. -/
theorem statOfSet_notExist (E : List (List Char)) (p : List Char) :
    statOfSet E p = StatResult.notExist ↔ p ∉ E := by
  unfold statOfSet
  by_cases h : p ∈ E
  · simp [h]
  · simp [h]

/-! ## Further lemmas on images and paths -/

/-- The test of `isBackground` on any colour: the sum of the squared
differences of the 8-bit channels from 255 is below 225. -/
theorem isBackground_iff (c : Color) :
    isBackground c = true ↔
      ((255 - ((c.RGBA.1 >>> 8 : Nat) : Int)) * (255 - ((c.RGBA.1 >>> 8 : Nat) : Int))
        + (255 - ((c.RGBA.2.1 >>> 8 : Nat) : Int)) * (255 - ((c.RGBA.2.1 >>> 8 : Nat) : Int))
        + (255 - ((c.RGBA.2.2.1 >>> 8 : Nat) : Int)) * (255 - ((c.RGBA.2.2.1 >>> 8 : Nat) : Int))).toNat
        < 225 := by
  have e15 : ((255 : Int) - 240).toNat = 15 := by decide
  unfold isBackground
  obtain ⟨r, g, b, a⟩ := c.RGBA
  simp only [e15]
  exact sqrt_lt_15_iff _

/-- A square below 225 has a root within 14 of zero. -/
theorem near_of_sq_lt (R : Nat) (s : Int) (hs : 0 ≤ s)
    (h : ((255 - (R : Int)) * (255 - (R : Int)) + s).toNat < 225) : 241 ≤ R := by
  by_contra hcon
  have h1 : (15 : Int) ≤ 255 - (R : Int) := by omega
  have h2 : (225 : Int) ≤ (255 - (R : Int)) * (255 - (R : Int)) := by nlinarith
  omega

/-- The pixel `(250, 249, 248, 255)` is background. -/
theorem pale_isBackground : isBackground (Color.rgba ⟨250, 249, 248, 255⟩) = true := by
  rw [isBackground_rgba _ (by simp [RGBA.valid])]
  decide

/-- The loops of `replaceBackgroundWithGray` repaint the positions
`(Min.X + j, Min.Y + k)` of the bounds of a fresh image. -/
theorem replaceBackgroundWithGray_paints (img : Image) :
    Paints (repainted img)
      (fun x y => ∃ k : Nat,
        k ∈ List.range (((img.Bounds.Max.Y - img.Bounds.Min.Y).toNat + 1 - 1) / 1) ∧
        ∃ j : Nat, j ∈ List.range (((img.Bounds.Max.X - img.Bounds.Min.X).toNat + 1 - 1) / 1) ∧
          x = img.Bounds.Min.X + ((1 : Nat) : Int) * (j : Int) ∧
          y = img.Bounds.Min.Y + ((1 : Nat) : Int) * (k : Int))
      (NewRGBA img.Bounds) (replaceBackgroundWithGray img) := by
  unfold replaceBackgroundWithGray
  simp only [forLoop_eq_foldl]
  have hinner : ∀ (t : RGBAImage) (k : Nat),
      Paints (repainted img)
        (fun x1 y1 => ∃ j ∈ List.range (((img.Bounds.Max.X - img.Bounds.Min.X).toNat + 1 - 1) / 1),
          x1 = img.Bounds.Min.X + ((1 : Nat) : Int) * (j : Int) ∧
          y1 = img.Bounds.Min.Y + ((1 : Nat) : Int) * (k : Int)) t
        ((List.range (((img.Bounds.Max.X - img.Bounds.Min.X).toNat + 1 - 1) / 1)).foldl
          (fun (t : RGBAImage) (k_1 : Nat) =>
            if isBackground (img.At (img.Bounds.Min.X + ((1 : Nat) : Int) * (k_1 : Int))
                (img.Bounds.Min.Y + ((1 : Nat) : Int) * (k : Int))) = true
            then t.Set (img.Bounds.Min.X + ((1 : Nat) : Int) * (k_1 : Int))
                (img.Bounds.Min.Y + ((1 : Nat) : Int) * (k : Int)) (Color.rgba grayColor)
            else t.Set (img.Bounds.Min.X + ((1 : Nat) : Int) * (k_1 : Int))
                (img.Bounds.Min.Y + ((1 : Nat) : Int) * (k : Int))
                (img.At (img.Bounds.Min.X + ((1 : Nat) : Int) * (k_1 : Int))
                  (img.Bounds.Min.Y + ((1 : Nat) : Int) * (k : Int)))) t) := by
    intro t k
    exact foldl_paints (repainted img)
      (fun (j : Nat) x1 y1 => x1 = img.Bounds.Min.X + ((1 : Nat) : Int) * (j : Int) ∧
          y1 = img.Bounds.Min.Y + ((1 : Nat) : Int) * (k : Int)) _
      (fun t j => body_paints img t _ _) _ t
  exact foldl_paints (repainted img) _ _ hinner
    (List.range (((img.Bounds.Max.Y - img.Bounds.Min.Y).toNat + 1 - 1) / 1)) (NewRGBA img.Bounds)

/-- Outside the bounds the image returned by `replaceBackgroundWithGray`
holds the zero pixel of `NewRGBA`. -/
theorem replaceBackgroundWithGray_outside (img : Image) (x y : Int)
    (hout : ¬ (Point.In ⟨x, y⟩ img.Bounds = true)) :
    (replaceBackgroundWithGray img).Pix x y = ⟨0, 0, 0, 0⟩ := by
  obtain ⟨_, hpix⟩ := replaceBackgroundWithGray_paints img
  rw [(hpix x y).2 (fun h => hout h.2)]
  rfl

/-- Inside an 8-bit RGBA image the stored pixel of the result is gray for a
background pixel and the original pixel otherwise. -/
theorem replace_Pix (p : RGBAImage) (hp : p.valid) (x y : Int)
    (hin : Point.In ⟨x, y⟩ p.Rect = true) :
    (replaceBackgroundWithGray p.toImage).Pix x y =
      if (255 - (p.Pix x y).R) ^ 2 + (255 - (p.Pix x y).G) ^ 2 + (255 - (p.Pix x y).B) ^ 2 < 225
      then grayColor else p.Pix x y := by
  have h := replace_RGBAAt p hp x y hin
  have hrect : (replaceBackgroundWithGray p.toImage).Rect = p.Rect :=
    (replaceBackgroundWithGray_eq p.toImage).1
  unfold RGBAImage.RGBAAt at h
  rw [hrect, if_pos hin] at h
  exact h

/-- The result of `replaceBackgroundWithGray` on an 8-bit image holds 8-bit channels. -/
theorem replace_valid (p : RGBAImage) (hp : p.valid) :
    (replaceBackgroundWithGray p.toImage).valid := by
  intro x y
  by_cases hin : Point.In ⟨x, y⟩ p.Rect = true
  · rw [replace_Pix p hp x y hin]
    split_ifs
    · simp [RGBA.valid, grayColor]
    · exact hp x y
  · rw [replaceBackgroundWithGray_outside p.toImage x y hin]
    simp [RGBA.valid]

/-- Two `*image.RGBA` values with the same rectangle and the same pixels are equal. -/
theorem RGBAImage.eq_of (p q : RGBAImage) (hr : p.Rect = q.Rect)
    (hpix : ∀ x y, p.Pix x y = q.Pix x y) : p = q := by
  cases p
  cases q
  simp only [RGBAImage.mk.injEq]
  exact ⟨funext fun x => funext fun y => hpix x y, hr⟩

/-- The character of the gray replacement colour. -/
theorem pixelChar_gray : pixelChar (Color.rgba grayColor) = '/' := by
  decide

/-- A path has at least one element. -/
theorem splitSlash_ne_nil (p : List Char) : splitSlash p ≠ [] := by
  cases p with
  | nil => simp [splitSlash]
  | cons c cs =>
    unfold splitSlash
    split_ifs
    · simp
    · split <;> simp

/-- The elements of a path hold no separator. -/
theorem splitSlash_mem_slashfree (p : List Char) :
    ∀ comp ∈ splitSlash p, ∀ c ∈ comp, c ≠ '/' := by
  induction p with
  | nil => simp [splitSlash]
  | cons d cs ih =>
    unfold splitSlash
    by_cases hd : d = '/'
    · rw [if_pos hd]
      intro comp hcomp
      rcases List.mem_cons.1 hcomp with rfl | h
      · simp
      · exact ih comp h
    · rw [if_neg hd]
      cases hs : splitSlash cs with
      | nil => exact absurd hs (splitSlash_ne_nil cs)
      | cons h t =>
        rw [hs] at ih
        intro comp hcomp
        rcases List.mem_cons.1 hcomp with rfl | hm
        · intro c hc
          rcases List.mem_cons.1 hc with rfl | hc
          · exact hd
          · exact ih h (List.mem_cons_self _ _) c hc
        · exact ih comp (List.mem_cons_of_mem _ hm)

/-- The elements of `D/N` are those of `D` followed by those of `N`. -/
theorem splitSlash_append_slash (D N : List Char) :
    splitSlash (D ++ '/' :: N) = splitSlash D ++ splitSlash N := by
  induction D with
  | nil => simp [splitSlash]
  | cons d cs ih =>
    by_cases hd : d = '/'
    · simp [splitSlash, hd, ih]
    · cases hs : splitSlash cs with
      | nil => exact absurd hs (splitSlash_ne_nil cs)
      | cons h t =>
        simp [splitSlash, hd, ih, hs]

/-- After a prefix that is empty or ends in a separator, a string without
separator is the last element. -/
theorem lastElem_append (P s : List Char) (hP : P = [] ∨ ∃ Q, P = Q ++ ['/'])
    (hs : ∀ c ∈ s, c ≠ '/') : lastElem (P ++ s) = s := by
  unfold lastElem
  have hall : ∀ a ∈ s.reverse, (fun c => c != '/') a = true := by
    intro a ha
    simpa using hs a (List.mem_reverse.1 ha)
  rw [List.reverse_append, List.takeWhile_append_of_pos hall]
  rcases hP with rfl | ⟨Q, rfl⟩
  · simp
  · simp

/-- The extension found by the scan is a suffix of the bytes passed before
the first separator. -/
theorem extAux_suffix (rest acc : List Char) :
    extAux rest acc <:+ (rest.takeWhile (fun c => c != '/')).reverse ++ acc := by
  induction rest generalizing acc with
  | nil => simp [extAux]
  | cons d rest ih =>
    unfold extAux
    by_cases h1 : d = '/'
    · rw [if_pos h1]
      exact List.nil_suffix
    · have htw : List.takeWhile (fun c => c != '/') (d :: rest)
          = d :: List.takeWhile (fun c => c != '/') rest := by
        simp [List.takeWhile_cons, h1]
      rw [if_neg h1, htw, List.reverse_cons, List.append_assoc]
      by_cases h2 : d = '.'
      · rw [if_pos h2, h2]
        exact List.suffix_append _ _
      · rw [if_neg h2]
        exact ih (d :: acc)

/-- The part of a cleaned path before its last element is empty or ends in
a separator. -/
theorem cleanPrefix_shape (r : Bool) (S : List (List Char)) :
    ((if r = true then ['/'] else []) ++ (if S = [] then [] else joinSlash S ++ ['/'])) = [] ∨
    ∃ Q, ((if r = true then ['/'] else []) ++ (if S = [] then [] else joinSlash S ++ ['/']))
      = Q ++ ['/'] := by
  by_cases hS : S = []
  · cases r
    · left
      simp [hS]
    · right
      exact ⟨[], by simp [hS]⟩
  · right
    rw [if_neg hS, ← List.append_assoc]
    exact ⟨_, rfl⟩

/-- Every probed path is a prefix, empty or ending in a separator, followed
by its last element: an element of `dir/name`, `-`, the digits of the pass
and the extension. -/
theorem candidatePath_lastElem (b : List Char) :
    ∃ (P l : List Char) (I : List (List Char)),
      splitSlash (Dir b ++ '/' :: TrimSuffix (Base b) (Ext b)) = I ++ [l] ∧
      ∀ i : Nat, lastElem (candidatePath b i) = l ++ '-' :: (Nat.toDigits 10 i ++ Ext b) ∧
        candidatePath b i = P ++ (l ++ '-' :: (Nat.toDigits 10 i ++ Ext b)) := by
  have hdir : Dir b ≠ [] := Clean_ne_nil _
  obtain ⟨I, l, hI, hsplit⟩ := splitSlash_append (Dir b ++ '/' :: TrimSuffix (Base b) (Ext b))
  have hl : ∀ c ∈ l, c ≠ '/' :=
    splitSlash_mem_slashfree _ l (by rw [hI]; simp)
  have hP := cleanPrefix_shape (decide ((Dir b).head? = some '/'))
    (List.foldl (cleanStep (decide ((Dir b).head? = some '/'))) [] I)
  refine ⟨(if decide ((Dir b).head? = some '/') = true then ['/'] else []) ++
      (if List.foldl (cleanStep (decide ((Dir b).head? = some '/'))) [] I = [] then []
        else joinSlash (List.foldl (cleanStep (decide ((Dir b).head? = some '/'))) [] I) ++ ['/']),
    l, I, hI, fun i => ?_⟩
  have hB : ∀ c ∈ '-' :: (Nat.toDigits 10 i ++ Ext b), c ≠ '/' := by
    intro c hc
    rcases List.mem_cons.1 hc with rfl | hc
    · decide
    · rcases List.mem_append.1 hc with hc | hc
      · exact toDigits_slashfree i c hc
      · exact Ext_slashfree b c hc
  have hlB : ∀ c ∈ l ++ '-' :: (Nat.toDigits 10 i ++ Ext b), c ≠ '/' := by
    intro c hc
    rcases List.mem_append.1 hc with hc | hc
    · exact hl c hc
    · exact hB c hc
  have hjoin : candidatePath b i =
      Clean ((Dir b ++ '/' :: TrimSuffix (Base b) (Ext b)) ++ '-' :: (Nat.toDigits 10 i ++ Ext b)) := by
    unfold candidatePath Join
    have hne : (Dir b == []) = false := by
      cases hd : Dir b with
      | nil => exact absurd hd hdir
      | cons a t => rfl
    simp [List.dropWhile, hne, joinSlash]
  have hpne : (Dir b ++ '/' :: TrimSuffix (Base b) (Ext b)) ++ '-' :: (Nat.toDigits 10 i ++ Ext b)
      ≠ [] := by simp
  have hhead : ((Dir b ++ '/' :: TrimSuffix (Base b) (Ext b)) ++
      '-' :: (Nat.toDigits 10 i ++ Ext b)).head? = (Dir b).head? := by
    cases hd : Dir b with
    | nil => exact absurd hd hdir
    | cons a t => rfl
  have hcand : candidatePath b i =
      ((if decide ((Dir b).head? = some '/') = true then ['/'] else []) ++
      (if List.foldl (cleanStep (decide ((Dir b).head? = some '/'))) [] I = [] then []
        else joinSlash (List.foldl (cleanStep (decide ((Dir b).head? = some '/'))) [] I) ++ ['/']))
      ++ (l ++ '-' :: (Nat.toDigits 10 i ++ Ext b)) := by
    rw [hjoin]
    unfold Clean
    rw [if_neg hpne]
    simp only [hhead, hsplit _ hB, List.foldl_append, List.foldl_cons, List.foldl_nil]
    rw [cleanStep_keep _ _ _ (by simp), joinSlash_append_singleton]
    rw [if_neg (by simp)]
    simp
  refine ⟨?_, hcand⟩
  rw [hcand]
  exact lastElem_append _ _ hP hlB

/-- What is left by `dropWhile` is empty or starts with an element that fails
the test. -/
theorem dropWhile_shape (q : Char → Bool) (l : List Char) :
    l.dropWhile q = [] ∨ ∃ a t, l.dropWhile q = a :: t ∧ q a = false := by
  induction l with
  | nil => exact Or.inl rfl
  | cons a t ih =>
    cases hq : q a
    · right
      exact ⟨a, t, by simp [List.dropWhile_cons, hq], hq⟩
    · simpa [List.dropWhile_cons, hq] using ih

/-- The part of a path after its last separator is one of its elements. -/
theorem lastElem_mem_splitSlash (p : List Char) : lastElem p ∈ splitSlash p := by
  have hfree : ∀ c ∈ lastElem p, c ≠ '/' := by
    intro c hc
    unfold lastElem at hc
    have := List.mem_takeWhile_imp (List.mem_reverse.1 hc)
    simpa using this
  have hsplit : p = (p.reverse.dropWhile (fun c => c != '/')).reverse ++ lastElem p := by
    unfold lastElem
    rw [← List.reverse_append, List.takeWhile_append_dropWhile, List.reverse_reverse]
  rcases dropWhile_shape (fun c => c != '/') p.reverse with h | ⟨a, t, h, ha⟩
  · rw [h] at hsplit
    simp only [List.reverse_nil, List.nil_append] at hsplit
    have hp : lastElem p = p := hsplit.symm
    rw [hp] at hfree ⊢
    rw [splitSlash_slashfree p hfree]
    exact List.mem_singleton_self p
  · have ha2 : a = '/' := by simpa using ha
    rw [h, ha2, List.reverse_cons, List.append_assoc] at hsplit
    have e : splitSlash p = splitSlash t.reverse ++ [lastElem p] := by
      conv_lhs => rw [hsplit]
      rw [List.singleton_append, splitSlash_append_slash, splitSlash_slashfree _ hfree]
    rw [e]
    simp

/-- The file name of a probed path is the file name of the base path with
`-` and the digits of the pass inserted before the extension. -/
theorem candidatePath_lastElem_length (b : List Char) (d : Char) (rest : List Char)
    (hrev : b.reverse = d :: rest) (hd : d ≠ '/') (i : Nat) :
    (lastElem (candidatePath b i)).length
      = (lastElem b).length + 1 + (Nat.toDigits 10 i).length := by
  obtain ⟨P, l, I, hI, hcand⟩ := candidatePath_lastElem b
  have hlast := (hcand i).1
  have hbne : b ≠ [] := by
    intro h
    simp [h] at hrev
  have hsuf : Ext b <:+ lastElem b := by
    have := extAux_suffix b.reverse []
    rw [List.append_nil] at this
    exact this
  obtain ⟨n, hn⟩ := hsuf
  have hbase : Base b = lastElem b := by
    unfold Base lastElem
    rw [if_neg hbne, hrev]
    simp [List.dropWhile_cons, List.takeWhile_cons, hd]
  have hname : TrimSuffix (Base b) (Ext b) = n := by
    unfold TrimSuffix
    rw [hbase, ← hn]
    have : (Ext b).isSuffixOf (n ++ Ext b) = true := by
      rw [List.isSuffixOf_iff_suffix]
      exact List.suffix_append _ _
    rw [if_pos this]
    simp
  have hnfree : ∀ c ∈ n, c ≠ '/' := by
    intro c hc
    have hmem : c ∈ lastElem b := by
      rw [← hn]
      exact List.mem_append_left _ hc
    unfold lastElem at hmem
    have := List.mem_takeWhile_imp (List.mem_reverse.1 hmem)
    simpa using this
  have hl : l = n := by
    rw [hname, splitSlash_append_slash, splitSlash_slashfree n hnfree] at hI
    exact (List.append_inj_right' hI rfl |> List.singleton_inj.1).symm
  rw [hlast, hl, ← hn]
  simp
  omega

/-- No probed path is the base path itself. -/
theorem candidatePath_ne_base (b : List Char) (i : Nat) : candidatePath b i ≠ b := by
  intro heq
  cases hrev : b.reverse with
  | nil =>
    obtain ⟨P, l, I, hI, hcand⟩ := candidatePath_lastElem b
    have hlast := (hcand i).1
    rw [heq] at hlast
    simp [lastElem, hrev] at hlast
  | cons d rest =>
    by_cases hd : d = '/'
    · obtain ⟨P, l, I, hI, hcand⟩ := candidatePath_lastElem b
      have hlast := (hcand i).1
      rw [heq] at hlast
      simp [lastElem, hrev, hd] at hlast
    · have hlen := candidatePath_lastElem_length b d rest hrev hd i
      rw [heq] at hlen
      omega

set_option maxRecDepth 100000 in
/-- The path `longBase`: its last byte and the length of its file name. -/
theorem longBase_facts :
    longBase.reverse = 'g' :: longBase.reverse.tail ∧ (lastElem longBase).length = 255 ∧
    statNameMax ["output".toList, longBase] longBase = StatResult.found := by
  decide

/-- When the base path exists, one of the first `|E|` probed paths is not in
`E`: the base path and the probed paths are pairwise distinct. -/
theorem exists_free_candidate_card (E : List (List Char)) (b : List Char) (hb : b ∈ E) :
    ∃ i : Nat, 1 ≤ i ∧ i ≤ E.toFinset.card ∧ candidatePath b i ∉ E := by
  by_contra hcon
  push_neg at hcon
  have hmap : ((List.range E.toFinset.card).map fun k => candidatePath b (k + 1)).Nodup := by
    apply List.Nodup.map _ (List.nodup_range _)
    intro x y hxy
    have := candidatePath_injective b _ _ hxy
    omega
  have hnodup : (b :: (List.range E.toFinset.card).map fun k => candidatePath b (k + 1)).Nodup := by
    rw [List.nodup_cons]
    refine ⟨?_, hmap⟩
    intro hmem
    rw [List.mem_map] at hmem
    obtain ⟨k, _, hk⟩ := hmem
    exact candidatePath_ne_base b (k + 1) hk
  have hsub : (b :: (List.range E.toFinset.card).map fun k => candidatePath b (k + 1)) ⊆ E.dedup := by
    intro p hp
    rw [List.mem_dedup]
    rcases List.mem_cons.1 hp with rfl | hp
    · exact hb
    · rw [List.mem_map] at hp
      obtain ⟨k, hk, rfl⟩ := hp
      rw [List.mem_range] at hk
      exact hcon (k + 1) (by omega) (by omega)
  have hlen := (List.subperm_of_subset hnodup hsub).length_le
  rw [List.length_cons, List.length_map, List.length_range, List.card_toFinset] at hlen
  omega

/-- On the file system of the specification (a set `E` of existing paths,
"not exist" for every other path) `getAvailableFilename(base)` returns `base`
when `base` is not in `E`; otherwise it returns the path
`Join(dir, name-i ext)` for the least `i ≥ 1` whose path is not in `E` (such
an `i` exists and is at most `|E| + 1`). With `E = {output/ascii-foo.png}` the
result is `output/ascii-foo-1.png`, and with `output/ascii-foo-1.png` in `E`
as well it is `output/ascii-foo-2.png`. -/
theorem getAvailableFilename_onSet (E : List (List Char)) (base : List Char) :
    (base ∉ E → ∀ fuel, getAvailableFilename (statOfSet E) fuel base = some base) ∧
    (base ∈ E → ∃ i : Nat, 1 ≤ i ∧ i ≤ E.length + 1 ∧
      candidatePath base i =
        Join [Dir base, TrimSuffix (Base base) (Ext base) ++ '-' :: (Nat.toDigits 10 i ++ Ext base)] ∧
      candidatePath base i ∉ E ∧
      (∀ j, 1 ≤ j → j < i → candidatePath base j ∈ E) ∧
      ∀ fuel, i ≤ fuel →
        getAvailableFilename (statOfSet E) fuel base = some (candidatePath base i)) ∧
    getAvailableFilename (statOfSet ["output/ascii-foo.png".toList]) 1
      "output/ascii-foo.png".toList = some "output/ascii-foo-1.png".toList ∧
    getAvailableFilename
      (statOfSet ["output/ascii-foo.png".toList, "output/ascii-foo-1.png".toList]) 2
      "output/ascii-foo.png".toList = some "output/ascii-foo-2.png".toList := by
  refine ⟨fun h fuel => ?_, fun h => ?_, by decide, by decide⟩
  · unfold getAvailableFilename
    rw [if_pos ((statOfSet_notExist E base).2 h)]
  · have hex : ∃ i : Nat, 1 ≤ i ∧ candidatePath base i ∉ E := by
      obtain ⟨i, h1, _, h3⟩ := exists_free_candidate E base
      exact ⟨i, h1, h3⟩
    obtain ⟨i0, h1, hle, h3⟩ := exists_free_candidate E base
    refine ⟨Nat.find hex, (Nat.find_spec hex).1, le_trans (Nat.find_min' hex ⟨h1, h3⟩) hle, rfl,
      (Nat.find_spec hex).2, fun j hj1 hj2 => ?_, fun fuel hfuel => ?_⟩
    · by_contra hj
      exact Nat.find_min hex hj2 ⟨hj1, hj⟩
    · unfold getAvailableFilename
      rw [if_neg (fun hne => (statOfSet_notExist E base).1 hne h)]
      apply probe_eq (statOfSet E) base fuel 1 (Nat.find hex) (Nat.find_spec hex).1
      · have := (Nat.find_spec hex).1
        omega
      · intro j hj1 hj2 hne
        exact Nat.find_min hex hj2 ⟨hj1, (statOfSet_notExist E _).1 hne⟩
      · exact (statOfSet_notExist E _).2 (Nat.find_spec hex).2

/-- On the file system of the specification the probing loop terminates: the
probed paths are pairwise distinct, and when the base path is in `E` some
pass `i ≤ |E|` probes a path that is not in `E`, which the function returns
as soon as the loop may run `i` passes. -/
theorem getAvailableFilename_onSet_terminates (E : List (List Char)) (base : List Char) :
    (∀ i j : Nat, candidatePath base i = candidatePath base j → i = j) ∧
    (base ∉ E → getAvailableFilename (statOfSet E) 0 base = some base) ∧
    (base ∈ E → ∃ i : Nat, 1 ≤ i ∧ i ≤ E.toFinset.card ∧ candidatePath base i ∉ E ∧
      ∀ fuel, i ≤ fuel →
        getAvailableFilename (statOfSet E) fuel base = some (candidatePath base i)) := by
  refine ⟨candidatePath_injective base, fun hb => ?_, fun hbase => ?_⟩
  · unfold getAvailableFilename
    rw [if_pos ((statOfSet_notExist E base).2 hb)]
  obtain ⟨i0, h1, hle, h3⟩ := exists_free_candidate_card E base hbase
  have hex : ∃ i : Nat, 1 ≤ i ∧ candidatePath base i ∉ E := ⟨i0, h1, h3⟩
  refine ⟨Nat.find hex, (Nat.find_spec hex).1, le_trans (Nat.find_min' hex ⟨h1, h3⟩) hle,
    (Nat.find_spec hex).2, fun fuel hfuel => ?_⟩
  unfold getAvailableFilename
  rw [if_neg (fun hne => (statOfSet_notExist E base).1 hne hbase)]
  apply probe_eq (statOfSet E) base fuel 1 (Nat.find hex) (Nat.find_spec hex).1
  · have := (Nat.find_spec hex).1
    omega
  · intro j hj1 hj2 hne
    exact Nat.find_min hex hj2 ⟨hj1, (statOfSet_notExist E _).1 hne⟩
  · exact (statOfSet_notExist E _).2 (Nat.find_spec hex).2

/-! ## Claims -/

/-- C1 (amended): for every 8-bit RGBA image, `getASCIIArt` succeeds and the
character at line `k`, column `x` of its grid is
`asciiChars[floor((brightness / 255) * (len - 1))]`, where `brightness` is
`floor(floor((257 R + 257 G + 257 B) / 3) / 256)`, the average of the 16-bit
channels shifted right by 8, of the pixel at column `Min.X + x`, row
`Min.Y + 2 k` of the bounds. -/
theorem getASCIIArt_char (p : RGBAImage) (hp : p.valid) (k x : Nat)
    (hk : 2 * (k : Int) < p.Rect.Dy) (hx : (x : Int) < p.Rect.Dx) :
    ∃ lines row ch, getASCIIArt p.toImage = some lines ∧ lines[k]? = some row ∧
      row[x]? = some ch ∧
      asciiChars[specIndex (((257 * (p.Pix (p.Rect.Min.X + x) (p.Rect.Min.Y + 2 * k)).R
          + 257 * (p.Pix (p.Rect.Min.X + x) (p.Rect.Min.Y + 2 * k)).G
          + 257 * (p.Pix (p.Rect.Min.X + x) (p.Rect.Min.Y + 2 * k)).B) / 3 / 256 : ℕ) : ℚ)]?
        = some ch := by
  have hk1 : k < (p.toImage.Bounds.Dy.toNat + 1) / 2 := by
    have : p.toImage.Bounds.Dy = p.Rect.Dy := rfl
    omega
  have hx1 : x < p.toImage.Bounds.Dx.toNat := by
    have : p.toImage.Bounds.Dx = p.Rect.Dx := rfl
    omega
  have hAt : p.toImage.At (p.Rect.Min.X + x) (p.Rect.Min.Y + 2 * k) =
      Color.rgba (p.Pix (p.Rect.Min.X + x) (p.Rect.Min.Y + 2 * k)) := by
    apply toImage_At
    · omega
    · simp only [Rectangle.Dx] at hx
      omega
    · omega
    · simp only [Rectangle.Dy] at hk
      omega
  have hv := hp (p.Rect.Min.X + x) (p.Rect.Min.Y + 2 * k)
  have hg := grayOf_rgba _ hv
  refine ⟨_, (List.range p.toImage.Bounds.Dx.toNat).map (fun (x : Nat) =>
      pixelChar (p.toImage.At (p.toImage.Bounds.Min.X + (x : Int))
        (p.toImage.Bounds.Min.Y + 2 * (k : Int)))),
    pixelChar (p.toImage.At (p.toImage.Bounds.Min.X + (x : Int))
        (p.toImage.Bounds.Min.Y + 2 * (k : Int))),
    getASCIIArt_eq p.toImage, ?_, ?_, ?_⟩
  · rw [List.getElem?_map, List.getElem?_range hk1]
    rfl
  · rw [List.getElem?_map, List.getElem?_range hx1]
    rfl
  · rw [specIndex_eq]
    have hb : p.toImage.Bounds = p.Rect := rfl
    rw [hb, hAt]
    unfold pixelChar
    have hlt := rampIndex_lt _ (grayOf_lt (Color.rgba (p.Pix (p.Rect.Min.X + x) (p.Rect.Min.Y + 2 * k))))
    rw [List.getD_eq_getElem _ _ hlt, ← hg, ← rampIndex_eq_floor _ (grayOf_lt _),
      List.getElem?_eq_getElem hlt]

/-- C1, witness of the amended statement on the 1x1 image `onePixel`. -/
theorem getASCIIArt_char_witness :
    (onePixel.valid ∧ 2 * ((0 : Nat) : Int) < onePixel.Rect.Dy ∧ ((0 : Nat) : Int) < onePixel.Rect.Dx) ∧
    ∃ lines row ch, getASCIIArt onePixel.toImage = some lines ∧ lines[0]? = some row ∧
      row[0]? = some ch ∧
      asciiChars[specIndex (((257 * (onePixel.Pix (onePixel.Rect.Min.X + (0 : Nat))
            (onePixel.Rect.Min.Y + 2 * (0 : Nat))).R
          + 257 * (onePixel.Pix (onePixel.Rect.Min.X + (0 : Nat))
            (onePixel.Rect.Min.Y + 2 * (0 : Nat))).G
          + 257 * (onePixel.Pix (onePixel.Rect.Min.X + (0 : Nat))
            (onePixel.Rect.Min.Y + 2 * (0 : Nat))).B) / 3 / 256 : ℕ) : ℚ)]?
        = some ch :=
  ⟨⟨onePixel_valid, by decide, by decide⟩,
    getASCIIArt_char onePixel onePixel_valid 0 0 (by decide) (by decide)⟩

/-- C1, counterexample: on the 1x1 opaque image with pixel `(88, 88, 87, 255)`
the code writes `c` (index 20, brightness `(257 * 263 / 3) >> 8 = 88`), while
the average `(88 + 88 + 87) / 3` of the 8-bit channels, taken exactly
(`87.67`) or as an integer (`87`), selects index 19, the character `z`. -/
theorem getASCIIArt_char_counterexample :
    getASCIIArt onePixel.toImage = some [['c']] ∧
    asciiChars[specIndex ((88 + 88 + 87 : ℚ) / 3)]? = some 'z' ∧
    asciiChars[specIndex (((88 + 88 + 87) / 3 : ℕ) : ℚ)]? = some 'z' := by
  refine ⟨?_, ?_, ?_⟩
  · rw [getASCIIArt_eq]
    decide
  · have h : specIndex ((88 + 88 + 87 : ℚ) / 3) = 19 := by
      unfold specIndex
      have hlen : asciiChars.length = 59 := by decide
      rw [hlen, Nat.floor_eq_iff (by norm_num)]
      norm_num
    rw [h]
    decide
  · rw [specIndex_eq]
    decide

/-- C2: for every image of width `W` and height `H`, `getASCIIArt` returns
exactly `ceil(H / 2)` lines, each of exactly `W` characters; the grid is
non-empty when `H ≥ 1`, has 5 lines for `H = 10` and 6 lines for `H = 11`. -/
theorem getASCIIArt_size (img : Image) (W H : Nat) (hW : img.Bounds.Dx = W)
    (hH : img.Bounds.Dy = H) :
    ∃ lines, getASCIIArt img = some lines ∧ lines.length = ⌈(H : ℚ) / 2⌉₊ ∧
      (∀ l ∈ lines, l.length = W) ∧ (1 ≤ H → lines ≠ []) ∧
      (H = 10 → lines.length = 5) ∧ (H = 11 → lines.length = 6) := by
  have hW1 : img.Bounds.Dx.toNat = W := by omega
  have hH1 : img.Bounds.Dy.toNat = H := by omega
  have hlen : ((List.range ((img.Bounds.Dy.toNat + 1) / 2)).map fun (k : Nat) =>
      (List.range img.Bounds.Dx.toNat).map fun (x : Nat) =>
        pixelChar (img.At (img.Bounds.Min.X + (x : Int)) (img.Bounds.Min.Y + 2 * (k : Int)))).length
      = (H + 1) / 2 := by
    rw [List.length_map, List.length_range, hH1]
  refine ⟨_, getASCIIArt_eq img, ?_, ?_, ?_, ?_, ?_⟩
  · rw [ceil_half]
    exact hlen
  · intro l hl
    rw [List.mem_map] at hl
    obtain ⟨k, _, rfl⟩ := hl
    rw [List.length_map, List.length_range, hW1]
  · intro h1 h0
    rw [h0] at hlen
    simp only [List.length_nil] at hlen
    omega
  · intro h10
    rw [hlen, h10]
  · intro h11
    rw [hlen, h11]

/-- C2, witness on the 3x5 image `smallImage`. -/
theorem getASCIIArt_size_witness :
    (smallImage.toImage.Bounds.Dx = ((3 : Nat) : Int) ∧
      smallImage.toImage.Bounds.Dy = ((5 : Nat) : Int)) ∧
    ∃ lines, getASCIIArt smallImage.toImage = some lines ∧ lines.length = ⌈((5 : Nat) : ℚ) / 2⌉₊ ∧
      (∀ l ∈ lines, l.length = 3) ∧ (1 ≤ 5 → lines ≠ []) ∧
      (5 = 10 → lines.length = 5) ∧ (5 = 11 → lines.length = 6) :=
  ⟨⟨by decide, by decide⟩, getASCIIArt_size smallImage.toImage 3 5 (by decide) (by decide)⟩

/-- C6: `mapBrightnessToChar(0)` is the first character of the ramp, `@`, and
`mapBrightnessToChar(255)` is its last character, the space. -/
theorem mapBrightnessToChar_ends :
    mapBrightnessToChar 0 = asciiChars.head? ∧ asciiChars.head? = some '@' ∧
    mapBrightnessToChar 255 = asciiChars.getLast? ∧ asciiChars.getLast? = some ' ' := by
  decide

/-- C7: the ramp index of `mapBrightnessToChar` is the index
`floor((v / 255) * (len - 1))` and is monotonic non-decreasing: for
`a ≤ b ≤ 255`, `index(a) ≤ index(b)`. -/
theorem rampIndex_mono (a b : Nat) (hab : a ≤ b) (hb : b ≤ 255) :
    rampIndex a = specIndex (a : ℚ) ∧ rampIndex b = specIndex (b : ℚ) ∧
    rampIndex a ≤ rampIndex b := by
  rw [specIndex_eq, specIndex_eq, rampIndex_eq_floor a (by omega), rampIndex_eq_floor b (by omega)]
  exact ⟨rfl, rfl, Nat.div_le_div_right (Nat.mul_le_mul_right 58 hab)⟩

/-- C7, witness at brightness 3 and 200. -/
theorem rampIndex_mono_witness :
    (3 ≤ 200 ∧ 200 ≤ 255) ∧ rampIndex 3 = specIndex ((3 : Nat) : ℚ) ∧
    rampIndex 200 = specIndex ((200 : Nat) : ℚ) ∧ rampIndex 3 ≤ rampIndex 200 :=
  ⟨⟨by decide, by decide⟩, rampIndex_mono 3 200 (by decide) (by decide)⟩

/-- C8: for every brightness in `0..255` the index
`floor((brightness / 255) * (len - 1))` used by `mapBrightnessToChar` lies in
`0..len - 1`, so the lookup does not panic; brightness 255 gives exactly
`len - 1`. -/
theorem rampIndex_in_bounds (b : Nat) (hb : b ≤ 255) :
    rampIndex b = specIndex (b : ℚ) ∧ rampIndex b ≤ asciiChars.length - 1 ∧
    (∃ ch, mapBrightnessToChar b = some ch) ∧ rampIndex 255 = asciiChars.length - 1 := by
  have hlt := rampIndex_lt b (by omega)
  refine ⟨?_, by omega, ⟨asciiChars[rampIndex b], ?_⟩, by decide⟩
  · rw [specIndex_eq, rampIndex_eq_floor b (by omega)]
  · unfold mapBrightnessToChar
    exact List.getElem?_eq_getElem hlt

/-- C8, witness at brightness 200. -/
theorem rampIndex_in_bounds_witness :
    200 ≤ 255 ∧ rampIndex 200 = specIndex ((200 : Nat) : ℚ) ∧
    rampIndex 200 ≤ asciiChars.length - 1 ∧
    (∃ ch, mapBrightnessToChar 200 = some ch) ∧ rampIndex 255 = asciiChars.length - 1 :=
  ⟨by decide, rampIndex_in_bounds 200 (by decide)⟩

/-- C3: for every original image of width `w ≥ h ≥ 1` (its height), the
target size computed in `main` is width 164 and height `floor(h * 164 / w)`;
for `h > w ≥ 1` it is height 164 and width `floor(w * 164 / h)`. The sides
are below `2^31`, the largest side an image decoded from PNG, JPEG or GIF can
have, so that the 64-bit products do not wrap. -/
theorem main_newSize_spec (w h : Nat) (hw : w < 2 ^ 31) (hh : h < 2 ^ 31) :
    (1 ≤ h → h ≤ w → main_newSize (w : Int) (h : Int) = some (164, h * 164 / w)) ∧
    (1 ≤ w → w < h → main_newSize (w : Int) (h : Int) = some (w * 164 / h, 164)) := by
  have h164 : toUint (164 : Int) = 164 := by decide
  constructor
  · intro h1 hle
    exact newSize_landscape w h hh hw h1 hle
  · intro h1 hlt
    unfold main_newSize
    have hgt : ¬ ((w : Int) > (h : Int)) := by omega
    have hh0 : ¬ ((h : Int) = 0) := by omega
    simp only [hgt, if_false, hh0]
    rw [scaledSide_eq w h hw, h164]

/-- C3, witness at 200x100 (landscape) and 100x200 (portrait). -/
theorem main_newSize_spec_witness :
    (200 < 2 ^ 31 ∧ 100 < 2 ^ 31 ∧ 1 ≤ 100 ∧ 100 ≤ 200 ∧ 1 ≤ 100 ∧ 100 < 200) ∧
    main_newSize ((200 : Nat) : Int) ((100 : Nat) : Int) = some (164, 100 * 164 / 200) ∧
    main_newSize ((100 : Nat) : Int) ((200 : Nat) : Int) = some (100 * 164 / 200, 164) :=
  ⟨by decide,
    (main_newSize_spec 200 100 (by decide) (by decide)).1 (by decide) (by decide),
    (main_newSize_spec 100 200 (by decide) (by decide)).2 (by decide) (by decide)⟩

/-- C10: for an input of size `w x h` with `w ≥ h ≥ 1`, when the resized image
has exactly the target size `164 x t` computed in `main`, `t = floor(h * 164 / w) ≥ 1`,
the canvas of `saveAsPNG` for the grid of `getASCIIArt` is `164 * 7` pixels
wide and `ceil(t / 2) * 13` pixels high; for a 200x100 input it is 1148 x 533. -/
theorem saveAsPNG_canvas_size (w h nw nh : Nat) (resized : Image) (hw : w < 2 ^ 31)
    (h1 : 1 ≤ h) (hhw : h ≤ w) (ht : 1 ≤ h * 164 / w)
    (hsz : main_newSize (w : Int) (h : Int) = some (nw, nh))
    (hDx : resized.Bounds.Dx = nw) (hDy : resized.Bounds.Dy = nh) :
    ∃ lines, getASCIIArt resized = some lines ∧
      saveAsPNG_canvas lines = some (164 * 7, ⌈((h * 164 / w : ℕ) : ℚ) / 2⌉₊ * 13) ∧
      (w = 200 → h = 100 → saveAsPNG_canvas lines = some (1148, 533)) := by
  have hspec := newSize_landscape w h (by omega) hw h1 hhw
  rw [hspec] at hsz
  simp only [Option.some.injEq, Prod.mk.injEq] at hsz
  obtain ⟨hnw, hnh⟩ := hsz
  have hW : resized.Bounds.Dx.toNat = 164 := by omega
  have hH : resized.Bounds.Dy.toNat = h * 164 / w := by omega
  have hcanvas : saveAsPNG_canvas ((List.range ((resized.Bounds.Dy.toNat + 1) / 2)).map
      fun (k : Nat) => (List.range resized.Bounds.Dx.toNat).map fun (x : Nat) =>
        pixelChar (resized.At (resized.Bounds.Min.X + (x : Int))
          (resized.Bounds.Min.Y + 2 * (k : Int))))
      = some (164 * 7, (h * 164 / w + 1) / 2 * 13) := by
    unfold saveAsPNG_canvas
    have hpos : 0 < (resized.Bounds.Dy.toNat + 1) / 2 := by omega
    rw [List.getElem?_map, List.getElem?_range hpos]
    simp only [Option.map_some', List.length_map, List.length_range, hW, hH]
  refine ⟨_, getASCIIArt_eq resized, ?_, ?_⟩
  · rw [ceil_half]
    exact hcanvas
  · intro hw200 hh100
    rw [hcanvas, hw200, hh100]

/-- C10, witness: a 200x100 input and a resized image of 164x82 pixels. -/
theorem saveAsPNG_canvas_size_witness :
    (200 < 2 ^ 31 ∧ 1 ≤ 100 ∧ 100 ≤ 200 ∧ 1 ≤ 100 * 164 / 200 ∧
      main_newSize ((200 : Nat) : Int) ((100 : Nat) : Int) = some (164, 82) ∧
      resizedSample.toImage.Bounds.Dx = ((164 : Nat) : Int) ∧
      resizedSample.toImage.Bounds.Dy = ((82 : Nat) : Int)) ∧
    ∃ lines, getASCIIArt resizedSample.toImage = some lines ∧
      saveAsPNG_canvas lines = some (164 * 7, ⌈((100 * 164 / 200 : ℕ) : ℚ) / 2⌉₊ * 13) ∧
      (200 = 200 → 100 = 100 → saveAsPNG_canvas lines = some (1148, 533)) :=
  ⟨by decide, saveAsPNG_canvas_size 200 100 164 82 resizedSample.toImage (by decide) (by decide)
    (by decide) (by decide) (by decide) (by decide) (by decide)⟩

/-- C4: for every 8-bit RGBA image, `replaceBackgroundWithGray` returns an
image with the same bounds in which a pixel is `(128, 128, 128, 255)` if the
Euclidean distance of its `(R, G, B)` from `(255, 255, 255)` is below 15
(equivalently, the sum of the squares is below 225), and is the original
pixel if the distance is at least 15. -/
theorem replaceBackgroundWithGray_spec (p : RGBAImage) (hp : p.valid) (x y : Int)
    (hin : Point.In ⟨x, y⟩ p.Rect = true) :
    (replaceBackgroundWithGray p.toImage).Rect = p.Rect ∧
    ∀ c : RGBA, p.Pix x y = c →
      (Real.sqrt (((255 : ℝ) - c.R) ^ 2 + ((255 : ℝ) - c.G) ^ 2 + ((255 : ℝ) - c.B) ^ 2) < 15 ↔
        (255 - c.R) ^ 2 + (255 - c.G) ^ 2 + (255 - c.B) ^ 2 < 225) ∧
      (Real.sqrt (((255 : ℝ) - c.R) ^ 2 + ((255 : ℝ) - c.G) ^ 2 + ((255 : ℝ) - c.B) ^ 2) < 15 →
        (replaceBackgroundWithGray p.toImage).RGBAAt x y = ⟨128, 128, 128, 255⟩) ∧
      (15 ≤ Real.sqrt (((255 : ℝ) - c.R) ^ 2 + ((255 : ℝ) - c.G) ^ 2 + ((255 : ℝ) - c.B) ^ 2) →
        (replaceBackgroundWithGray p.toImage).RGBAAt x y = c) := by
  refine ⟨(replaceBackgroundWithGray_eq p.toImage).1, ?_⟩
  rintro c rfl
  have hd := dist_lt_15_iff (p.Pix x y) (hp x y)
  have hr := replace_RGBAAt p hp x y hin
  refine ⟨hd, fun hlt => ?_, fun hge => ?_⟩
  · rw [hr, if_pos (hd.1 hlt)]
    rfl
  · rw [hr, if_neg (fun h => absurd (hd.2 h) (not_lt.2 hge))]

/-- C4, witness on the image `paleImage` at position `(1, 1)`. -/
theorem replaceBackgroundWithGray_spec_witness :
    (paleImage.valid ∧ Point.In ⟨1, 1⟩ paleImage.Rect = true) ∧
    (replaceBackgroundWithGray paleImage.toImage).Rect = paleImage.Rect ∧
    ∀ c : RGBA, paleImage.Pix 1 1 = c →
      (Real.sqrt (((255 : ℝ) - c.R) ^ 2 + ((255 : ℝ) - c.G) ^ 2 + ((255 : ℝ) - c.B) ^ 2) < 15 ↔
        (255 - c.R) ^ 2 + (255 - c.G) ^ 2 + (255 - c.B) ^ 2 < 225) ∧
      (Real.sqrt (((255 : ℝ) - c.R) ^ 2 + ((255 : ℝ) - c.G) ^ 2 + ((255 : ℝ) - c.B) ^ 2) < 15 →
        (replaceBackgroundWithGray paleImage.toImage).RGBAAt 1 1 = ⟨128, 128, 128, 255⟩) ∧
      (15 ≤ Real.sqrt (((255 : ℝ) - c.R) ^ 2 + ((255 : ℝ) - c.G) ^ 2 + ((255 : ℝ) - c.B) ^ 2) →
        (replaceBackgroundWithGray paleImage.toImage).RGBAAt 1 1 = c) :=
  ⟨⟨paleImage_valid, by decide⟩,
    replaceBackgroundWithGray_spec paleImage paleImage_valid 1 1 (by decide)⟩

/-- C5 (amended): for every pixel of an 8-bit RGBA image whose red, green and
blue channels are each at least 247, `isBackground` returns true and
`replaceBackgroundWithGray` writes exactly `(128, 128, 128, 255)` at the
position of the pixel. -/
theorem isBackground_near_white (p : RGBAImage) (hp : p.valid) (x y : Int)
    (hin : Point.In ⟨x, y⟩ p.Rect = true)
    (hR : 247 ≤ (p.Pix x y).R) (hG : 247 ≤ (p.Pix x y).G) (hB : 247 ≤ (p.Pix x y).B) :
    isBackground (p.toImage.At x y) = true ∧
    (replaceBackgroundWithGray p.toImage).RGBAAt x y = ⟨128, 128, 128, 255⟩ := by
  obtain ⟨hR1, hG1, hB1, _⟩ := hp x y
  have hlt : (255 - (p.Pix x y).R) ^ 2 + (255 - (p.Pix x y).G) ^ 2 + (255 - (p.Pix x y).B) ^ 2
      < 225 := by
    have h1 : (255 - (p.Pix x y).R) ^ 2 ≤ 8 ^ 2 := Nat.pow_le_pow_left (by omega) 2
    have h2 : (255 - (p.Pix x y).G) ^ 2 ≤ 8 ^ 2 := Nat.pow_le_pow_left (by omega) 2
    have h3 : (255 - (p.Pix x y).B) ^ 2 ≤ 8 ^ 2 := Nat.pow_le_pow_left (by omega) 2
    omega
  have hAt : p.toImage.At x y = Color.rgba (p.Pix x y) := by
    simp [RGBAImage.toImage, RGBAImage.RGBAAt, hin]
  constructor
  · rw [hAt, isBackground_rgba _ (hp x y)]
    exact decide_eq_true hlt
  · rw [replace_RGBAAt p hp x y hin, if_pos hlt]
    rfl

/-- C5, witness on the image `paleImage` at position `(0, 1)`. -/
theorem isBackground_near_white_witness :
    (paleImage.valid ∧ Point.In ⟨0, 1⟩ paleImage.Rect = true ∧ 247 ≤ (paleImage.Pix 0 1).R ∧
      247 ≤ (paleImage.Pix 0 1).G ∧ 247 ≤ (paleImage.Pix 0 1).B) ∧
    isBackground (paleImage.toImage.At 0 1) = true ∧
    (replaceBackgroundWithGray paleImage.toImage).RGBAAt 0 1 = ⟨128, 128, 128, 255⟩ :=
  ⟨⟨paleImage_valid, by decide, by decide, by decide, by decide⟩,
    isBackground_near_white paleImage paleImage_valid 0 1 (by decide) (by decide) (by decide)
      (by decide)⟩

/-- C5, counterexample: the opaque pixel `(241, 241, 241, 255)` has every
channel at least 241, its distance from white is `sqrt(3 * 14^2) = 24.2`, so
`isBackground` returns false and `replaceBackgroundWithGray` leaves the
pixel as it is. -/
theorem isBackground_near_white_counterexample :
    (241 ≤ (nearWhitePixel.Pix 0 0).R ∧ 241 ≤ (nearWhitePixel.Pix 0 0).G ∧
      241 ≤ (nearWhitePixel.Pix 0 0).B) ∧
    isBackground (nearWhitePixel.toImage.At 0 0) = false ∧
    (replaceBackgroundWithGray nearWhitePixel.toImage).RGBAAt 0 0 = ⟨241, 241, 241, 255⟩ ∧
    (replaceBackgroundWithGray nearWhitePixel.toImage).RGBAAt 0 0 ≠ ⟨128, 128, 128, 255⟩ := by
  have hin : Point.In ⟨0, 0⟩ nearWhitePixel.Rect = true := by decide
  have hAt : nearWhitePixel.toImage.At 0 0 = Color.rgba (nearWhitePixel.Pix 0 0) := by decide
  have hr := replace_RGBAAt nearWhitePixel nearWhitePixel_valid 0 0 hin
  refine ⟨by decide, ?_, ?_, ?_⟩
  · rw [hAt, isBackground_rgba _ (nearWhitePixel_valid 0 0)]
    decide
  · rw [hr]
    decide
  · rw [hr]
    decide

/-- C9, the code at its failing input: in a working directory where `output`
is a regular file the base path `output/ascii-foo.png` does not exist, yet
`os.Stat` fails with ENOTDIR for it and for every probed path,
`os.IsNotExist` is never true and `getAvailableFilename` returns after no
number of passes. -/
theorem getAvailableFilename_enotdir :
    statOutputFile "output/ascii-foo.png".toList = StatResult.otherError ∧
    (∀ i : Nat, statOutputFile (candidatePath "output/ascii-foo.png".toList i)
      = StatResult.otherError) ∧
    ∀ fuel : Nat, getAvailableFilename statOutputFile fuel "output/ascii-foo.png".toList = none := by
  have hbase : statOutputFile "output/ascii-foo.png".toList = StatResult.otherError := by decide
  have hother : ∀ i : Nat, statOutputFile (candidatePath "output/ascii-foo.png".toList i)
      = StatResult.otherError := by
    intro i
    obtain ⟨X, hX⟩ := candidatePath_shape "output/ascii-foo.png".toList
    have h1 : X ++ "1.png".toList = "output/ascii-foo-".toList ++ "1.png".toList := by
      have e1 : candidatePath "output/ascii-foo.png".toList 1
          = "output/ascii-foo-".toList ++ "1.png".toList := by decide
      have e2 : Nat.toDigits 10 1 ++ Ext "output/ascii-foo.png".toList = "1.png".toList := by
        decide
      rw [← e1, hX 1, e2]
    have hXeq : X = "output/ascii-foo-".toList := List.append_cancel_right h1
    have hpre : "output/".toList.isPrefixOf (candidatePath "output/ascii-foo.png".toList i)
        = true := by
      rw [List.isPrefixOf_iff_prefix, hX i, hXeq]
      exact ⟨"ascii-foo-".toList ++ (Nat.toDigits 10 i ++ Ext "output/ascii-foo.png".toList),
        by simp⟩
    unfold statOutputFile
    rw [if_pos hpre]
  refine ⟨hbase, hother, fun fuel => ?_⟩
  unfold getAvailableFilename
  rw [hbase, if_neg (by decide)]
  apply probe_none
  intro j
  rw [hother j]
  decide

/-- C11 (amended): for a pure-white input image, every character drawn is
the mid-ramp character `/`, index 29 of the ramp: a pixel `(255, 255, 255, 255)`
becomes `(128, 128, 128, 255)` in `replaceBackgroundWithGray`, and in every
image `resized` that holds this colour (resampling of a uniform image leaves
the colour unchanged) `getASCIIArt` computes brightness 128 and
`mapBrightnessToChar` gives `asciiChars[29]`. -/
theorem pure_white_chars (p resized : RGBAImage)
    (hwhite : ∀ x y : Int, p.Pix x y = ⟨255, 255, 255, 255⟩) (x0 y0 : Int)
    (hin0 : Point.In ⟨x0, y0⟩ p.Rect = true)
    (hres : ∀ x y : Int, resized.Pix x y = (replaceBackgroundWithGray p.toImage).RGBAAt x0 y0) :
    (replaceBackgroundWithGray p.toImage).RGBAAt x0 y0 = ⟨128, 128, 128, 255⟩ ∧
    grayOf (Color.rgba ⟨128, 128, 128, 255⟩) = 128 ∧
    mapBrightnessToChar 128 = some '/' ∧ asciiChars[29]? = some '/' ∧
    ∃ lines, getASCIIArt resized.toImage = some lines ∧
      ∀ row ∈ lines, ∀ ch ∈ row, ch = '/' := by
  have hp : p.valid := by
    intro x y
    rw [hwhite x y]
    simp [RGBA.valid]
  have hg : (replaceBackgroundWithGray p.toImage).RGBAAt x0 y0 = ⟨128, 128, 128, 255⟩ := by
    rw [replace_RGBAAt p hp x0 y0 hin0, hwhite x0 y0]
    rfl
  refine ⟨hg, by decide, by decide, by decide, _, getASCIIArt_eq resized.toImage, ?_⟩
  intro row hrow ch hch
  rw [List.mem_map] at hrow
  obtain ⟨k, hk, rfl⟩ := hrow
  rw [List.mem_map] at hch
  obtain ⟨x, hx, rfl⟩ := hch
  rw [List.mem_range] at hk hx
  have hb : resized.toImage.Bounds = resized.Rect := rfl
  rw [hb] at hk hx ⊢
  simp only [Rectangle.Dx, Rectangle.Dy] at hk hx
  rw [toImage_At resized _ _ (by omega) (by omega) (by omega) (by omega), hres, hg]
  exact pixelChar_gray

/-- C11, witness: the 1x1 white image, not resized. -/
theorem pure_white_chars_witness :
    ((∀ x y : Int, whitePixel.Pix x y = ⟨255, 255, 255, 255⟩) ∧
      Point.In ⟨0, 0⟩ whitePixel.Rect = true) ∧
    (replaceBackgroundWithGray whitePixel.toImage).RGBAAt 0 0 = ⟨128, 128, 128, 255⟩ ∧
    grayOf (Color.rgba ⟨128, 128, 128, 255⟩) = 128 ∧
    mapBrightnessToChar 128 = some '/' ∧ asciiChars[29]? = some '/' ∧
    ∃ lines, getASCIIArt (RGBAImage.toImage
        ⟨fun _ _ => (replaceBackgroundWithGray whitePixel.toImage).RGBAAt 0 0,
          ⟨⟨0, 0⟩, ⟨1, 1⟩⟩⟩) = some lines ∧
      ∀ row ∈ lines, ∀ ch ∈ row, ch = '/' :=
  ⟨⟨fun _ _ => rfl, by decide⟩,
    pure_white_chars whitePixel
      ⟨fun _ _ => (replaceBackgroundWithGray whitePixel.toImage).RGBAAt 0 0, ⟨⟨0, 0⟩, ⟨1, 1⟩⟩⟩
      (fun _ _ => rfl) 0 0 (by decide) (fun _ _ => rfl)⟩

/-- C11, counterexample: the white pixel of the 1x1 image `whitePixel` is
replaced by `(128, 128, 128, 255)`, for which `getASCIIArt` writes `/`; the
last character of the ramp is the space. -/
theorem pure_white_chars_counterexample :
    whitePixel.Pix 0 0 = ⟨255, 255, 255, 255⟩ ∧
    (replaceBackgroundWithGray whitePixel.toImage).RGBAAt 0 0 = ⟨128, 128, 128, 255⟩ ∧
    getASCIIArt (replaceBackgroundWithGray whitePixel.toImage).toImage = some [['/']] ∧
    asciiChars.getLast? = some ' ' ∧
    mapBrightnessToChar (grayOf (Color.rgba ⟨128, 128, 128, 255⟩)) ≠ asciiChars.getLast? := by
  have hv : whitePixel.valid := by
    intro x y
    simp [RGBA.valid, whitePixel]
  have hin : Point.In ⟨0, 0⟩ whitePixel.Rect = true := by decide
  have hg : (replaceBackgroundWithGray whitePixel.toImage).RGBAAt 0 0 = ⟨128, 128, 128, 255⟩ := by
    rw [replace_RGBAAt whitePixel hv 0 0 hin]
    decide
  have hrect : (replaceBackgroundWithGray whitePixel.toImage).Rect = ⟨⟨0, 0⟩, ⟨1, 1⟩⟩ :=
    (replaceBackgroundWithGray_eq whitePixel.toImage).1
  refine ⟨rfl, hg, ?_, by decide, by decide⟩
  rw [getASCIIArt_eq]
  have hb : (replaceBackgroundWithGray whitePixel.toImage).toImage.Bounds = ⟨⟨0, 0⟩, ⟨1, 1⟩⟩ :=
    hrect
  have hat : (replaceBackgroundWithGray whitePixel.toImage).toImage.At 0 0
      = Color.rgba ⟨128, 128, 128, 255⟩ := by
    show Color.rgba ((replaceBackgroundWithGray whitePixel.toImage).RGBAAt 0 0) = _
    rw [hg]
  rw [hb]
  have e1 : (⟨⟨0, 0⟩, ⟨1, 1⟩⟩ : Rectangle).Dy.toNat = 1 := by decide
  have e2 : (⟨⟨0, 0⟩, ⟨1, 1⟩⟩ : Rectangle).Dx.toNat = 1 := by decide
  rw [e1, e2]
  have hr : List.range ((1 + 1) / 2) = [0] := by decide
  have hr1 : List.range 1 = [0] := by decide
  simp only [hr, hr1, List.map_cons, List.map_nil, Nat.cast_zero, mul_zero, add_zero]
  rw [hat]
  decide

/-- C12 (amended): the ramp `asciiChars` is a string of exactly 59 characters. -/
theorem asciiChars_length : asciiChars.length = 59 := by
  decide

/-- C12, counterexample: the ramp does not have 69 characters. -/
theorem asciiChars_length_counterexample : asciiChars.length ≠ 69 := by
  decide

/-- C13: for every original image with width and height at least 1 (and
below `2^31`, the largest side of a decoded image), the target size computed
in `main` fits the 164x164 box, and the target of the longer original side
is exactly 164. -/
theorem main_newSize_fits (w h : Nat) (hw1 : 1 ≤ w) (hh1 : 1 ≤ h) (hw : w < 2 ^ 31)
    (hh : h < 2 ^ 31) :
    ∃ nw nh : Nat, main_newSize (w : Int) (h : Int) = some (nw, nh) ∧ nw ≤ 164 ∧ nh ≤ 164 ∧
      (h ≤ w → nw = 164) ∧ (w ≤ h → nh = 164) := by
  have h164 : toUint (164 : Int) = 164 := by decide
  unfold main_newSize
  by_cases hlt : (w : Int) > (h : Int)
  · have hw0 : ¬ ((w : Int) = 0) := by omega
    simp only [hlt, if_true, hw0, if_false]
    rw [scaledSide_eq h w hh, h164]
    have hq : h * 164 / w ≤ 164 := by
      apply Nat.div_le_of_le_mul
      nlinarith
    refine ⟨164, h * 164 / w, rfl, le_rfl, hq, fun _ => rfl, fun hle => ?_⟩
    omega
  · have hh0 : ¬ ((h : Int) = 0) := by omega
    simp only [hlt, if_false, hh0]
    rw [scaledSide_eq w h hw, h164]
    have hle : w ≤ h := by omega
    have hq : w * 164 / h ≤ 164 := by
      apply Nat.div_le_of_le_mul
      nlinarith
    refine ⟨w * 164 / h, 164, rfl, hq, le_rfl, fun hge => ?_, fun _ => rfl⟩
    have heq : w = h := by omega
    subst heq
    exact Nat.mul_div_cancel_left _ (by omega : 0 < w)

/-- C13, witness at 200x100. -/
theorem main_newSize_fits_witness :
    (1 ≤ 200 ∧ 1 ≤ 100 ∧ 200 < 2 ^ 31 ∧ 100 < 2 ^ 31) ∧
    ∃ nw nh : Nat, main_newSize ((200 : Nat) : Int) ((100 : Nat) : Int) = some (nw, nh) ∧
      nw ≤ 164 ∧ nh ≤ 164 ∧ (100 ≤ 200 → nw = 164) ∧ (200 ≤ 100 → nh = 164) :=
  ⟨by decide, main_newSize_fits 200 100 (by decide) (by decide) (by decide) (by decide)⟩

/-- C14: the target-size computation of `main` fails, by an integer division
by zero, only if the width or the height is zero; for every image with width
and height at least 1 the divisor is not zero and the computation succeeds. -/
theorem main_newSize_succeeds (origWidth origHeight : Int) :
    (main_newSize origWidth origHeight = none → origWidth = 0 ∨ origHeight = 0) ∧
    (1 ≤ origWidth → 1 ≤ origHeight →
      (if origWidth > origHeight then origWidth else origHeight) ≠ 0 ∧
      ∃ size, main_newSize origWidth origHeight = some size) := by
  constructor
  · intro hnone
    unfold main_newSize at hnone
    by_cases hlt : origWidth > origHeight
    · by_cases hw0 : origWidth = 0
      · exact Or.inl hw0
      · simp [hlt, hw0] at hnone
    · by_cases hh0 : origHeight = 0
      · exact Or.inr hh0
      · simp [hlt, hh0] at hnone
  · intro hw hh
    constructor
    · split_ifs <;> omega
    · unfold main_newSize
      by_cases hlt : origWidth > origHeight
      · have hw0 : ¬ (origWidth = 0) := by omega
        simp only [hlt, if_true, hw0, if_false]
        exact ⟨_, rfl⟩
      · have hh0 : ¬ (origHeight = 0) := by omega
        simp only [hlt, if_false, hh0]
        exact ⟨_, rfl⟩

/-- C15: only nearly white pixels are background: if `isBackground` returns
true, each of the 8-bit red, green and blue channels is at least 241. -/
theorem isBackground_channels (c : Color) (h : isBackground c = true) :
    (241 ≤ c.RGBA.1 >>> 8 ∧ 241 ≤ c.RGBA.2.1 >>> 8 ∧ 241 ≤ c.RGBA.2.2.1 >>> 8) ∧
    ∀ px : RGBA, px.valid → c = Color.rgba px → 241 ≤ px.R ∧ 241 ≤ px.G ∧ 241 ≤ px.B := by
  have hs := (isBackground_iff c).1 h
  have hR : 241 ≤ c.RGBA.1 >>> 8 := by
    apply near_of_sq_lt _ _ _ (by rw [add_assoc] at hs; exact hs)
    nlinarith [mul_self_nonneg (255 - ((c.RGBA.2.1 >>> 8 : Nat) : Int)),
      mul_self_nonneg (255 - ((c.RGBA.2.2.1 >>> 8 : Nat) : Int))]
  have hG : 241 ≤ c.RGBA.2.1 >>> 8 := by
    apply near_of_sq_lt _ ((255 - ((c.RGBA.1 >>> 8 : Nat) : Int)) * (255 - ((c.RGBA.1 >>> 8 : Nat) : Int))
        + (255 - ((c.RGBA.2.2.1 >>> 8 : Nat) : Int)) * (255 - ((c.RGBA.2.2.1 >>> 8 : Nat) : Int)))
    · nlinarith [mul_self_nonneg (255 - ((c.RGBA.1 >>> 8 : Nat) : Int)),
        mul_self_nonneg (255 - ((c.RGBA.2.2.1 >>> 8 : Nat) : Int))]
    · have e : ∀ a b d : Int, b + (a + d) = a + b + d := fun a b d => by ring
      rw [e]
      exact hs
  have hB : 241 ≤ c.RGBA.2.2.1 >>> 8 := by
    apply near_of_sq_lt _ ((255 - ((c.RGBA.1 >>> 8 : Nat) : Int)) * (255 - ((c.RGBA.1 >>> 8 : Nat) : Int))
        + (255 - ((c.RGBA.2.1 >>> 8 : Nat) : Int)) * (255 - ((c.RGBA.2.1 >>> 8 : Nat) : Int)))
    · nlinarith [mul_self_nonneg (255 - ((c.RGBA.1 >>> 8 : Nat) : Int)),
        mul_self_nonneg (255 - ((c.RGBA.2.1 >>> 8 : Nat) : Int))]
    · have e : ∀ a b d : Int, d + (a + b) = a + b + d := fun a b d => by ring
      rw [e]
      exact hs
  refine ⟨⟨hR, hG, hB⟩, ?_⟩
  rintro px ⟨hvR, hvG, hvB, _⟩ rfl
  simp only [Color.RGBA, accessor_shift _ hvR, accessor_shift _ hvG, accessor_shift _ hvB]
    at hR hG hB
  exact ⟨hR, hG, hB⟩

/-- C15, witness at the pixel `(250, 249, 248, 255)`. -/
theorem isBackground_channels_witness :
    isBackground (Color.rgba ⟨250, 249, 248, 255⟩) = true ∧
    (241 ≤ (Color.rgba ⟨250, 249, 248, 255⟩).RGBA.1 >>> 8 ∧
      241 ≤ (Color.rgba ⟨250, 249, 248, 255⟩).RGBA.2.1 >>> 8 ∧
      241 ≤ (Color.rgba ⟨250, 249, 248, 255⟩).RGBA.2.2.1 >>> 8) ∧
    ∀ px : RGBA, px.valid → Color.rgba ⟨250, 249, 248, 255⟩ = Color.rgba px →
      241 ≤ px.R ∧ 241 ≤ px.G ∧ 241 ≤ px.B :=
  ⟨pale_isBackground, isBackground_channels (Color.rgba ⟨250, 249, 248, 255⟩) pale_isBackground⟩

/-- C16, the code at its failing input: on a file system with NAME_MAX = 255
where the directory `output` and the file `longBase` (file name of 255
bytes) exist, `os.Stat` fails with ENAMETOOLONG for every probed path,
`os.IsNotExist` is never true and `getAvailableFilename` returns after no
number of passes, although no probed path exists. -/
theorem getAvailableFilename_enametoolong :
    statNameMax ["output".toList, longBase] longBase = StatResult.found ∧
    (∀ i : Nat, statNameMax ["output".toList, longBase] (candidatePath longBase i) = StatResult.otherError) ∧
    ∀ fuel : Nat, getAvailableFilename (statNameMax ["output".toList, longBase]) fuel longBase = none := by
  obtain ⟨hrev, hlen, hfound⟩ := longBase_facts
  have hother : ∀ i : Nat,
      statNameMax ["output".toList, longBase] (candidatePath longBase i) = StatResult.otherError := by
    intro i
    have hl := candidatePath_lastElem_length longBase 'g' _ hrev (by decide) i
    have hany : (splitSlash (candidatePath longBase i)).any (fun e => decide (255 < e.length))
        = true := by
      rw [List.any_eq_true]
      refine ⟨_, lastElem_mem_splitSlash (candidatePath longBase i), ?_⟩
      rw [decide_eq_true_eq, hl, hlen]
      omega
    unfold statNameMax
    rw [if_pos hany]
  refine ⟨hfound, hother, fun fuel => ?_⟩
  unfold getAvailableFilename
  rw [hfound, if_neg (by decide)]
  apply probe_none
  intro j
  rw [hother j]
  decide

/-- C17: for 16-bit channel values `r`, `g`, `b` in `0..65535` the brightness
`((r + g + b) / 3) >> 8` of `getASCIIArt` does not overflow 32 bits and lies
in `0..255`: the `uint32` sum and the conversion to `uint8` change nothing. -/
theorem grayOf_no_overflow (r g b a : Nat) (hr : r ≤ 65535) (hg : g ≤ 65535) (hb : b ≤ 65535) :
    r + g + b < 2 ^ 32 ∧ ((r + g + b) / 3) >>> 8 ≤ 255 ∧
    grayOf (Color.other r g b a) = ((r + g + b) / 3) >>> 8 := by
  have h32 : (2 : Nat) ^ 32 = 4294967296 := by norm_num
  have hsum : r + g + b < 2 ^ 32 := by rw [h32]; omega
  have hle : ((r + g + b) / 3) >>> 8 ≤ 255 := by
    rw [Nat.shiftRight_eq_div_pow]
    omega
  refine ⟨hsum, hle, ?_⟩
  simp only [grayOf, Color.RGBA, Nat.mod_eq_of_lt hsum]
  exact Nat.mod_eq_of_lt (by omega)

/-- C17, witness at the channel values of full white. -/
theorem grayOf_no_overflow_witness :
    (65535 ≤ 65535 ∧ 65535 ≤ 65535 ∧ 65535 ≤ 65535) ∧
    65535 + 65535 + 65535 < 2 ^ 32 ∧ ((65535 + 65535 + 65535) / 3) >>> 8 ≤ 255 ∧
    grayOf (Color.other 65535 65535 65535 65535) = ((65535 + 65535 + 65535) / 3) >>> 8 :=
  ⟨by decide, grayOf_no_overflow 65535 65535 65535 65535 (by decide) (by decide) (by decide)⟩

/-- C18: `replaceBackgroundWithGray` is idempotent on 8-bit RGBA images; the
replacement colour `(128, 128, 128, 255)` is not a background pixel. -/
theorem replaceBackgroundWithGray_idempotent (p : RGBAImage) (hp : p.valid) :
    replaceBackgroundWithGray (replaceBackgroundWithGray p.toImage).toImage =
      replaceBackgroundWithGray p.toImage ∧
    isBackground (Color.rgba grayColor) = false := by
  have hgray : isBackground (Color.rgba grayColor) = false := by
    rw [isBackground_rgba _ (by simp [RGBA.valid, grayColor])]
    decide
  refine ⟨?_, hgray⟩
  have hrect1 : (replaceBackgroundWithGray p.toImage).Rect = p.Rect :=
    (replaceBackgroundWithGray_eq p.toImage).1
  have hrect2 : (replaceBackgroundWithGray (replaceBackgroundWithGray p.toImage).toImage).Rect
      = (replaceBackgroundWithGray p.toImage).Rect :=
    (replaceBackgroundWithGray_eq _).1
  apply RGBAImage.eq_of _ _ hrect2
  intro x y
  by_cases hin : Point.In ⟨x, y⟩ p.Rect = true
  · have hin1 : Point.In ⟨x, y⟩ (replaceBackgroundWithGray p.toImage).Rect = true := by
      rw [hrect1]
      exact hin
    rw [replace_Pix _ (replace_valid p hp) x y hin1, replace_Pix p hp x y hin]
    by_cases hd : (255 - (p.Pix x y).R) ^ 2 + (255 - (p.Pix x y).G) ^ 2
        + (255 - (p.Pix x y).B) ^ 2 < 225
    · rw [if_pos hd]
      have : ¬ ((255 - grayColor.R) ^ 2 + (255 - grayColor.G) ^ 2 + (255 - grayColor.B) ^ 2
          < 225) := by decide
      rw [if_neg this]
    · rw [if_neg hd, if_neg hd]
  · have hout1 : ¬ (Point.In ⟨x, y⟩ (replaceBackgroundWithGray p.toImage).toImage.Bounds = true) := by
      have : (replaceBackgroundWithGray p.toImage).toImage.Bounds
          = (replaceBackgroundWithGray p.toImage).Rect := rfl
      rw [this, hrect1]
      exact hin
    rw [replaceBackgroundWithGray_outside _ x y hout1,
      replaceBackgroundWithGray_outside p.toImage x y hin]

/-- C18, witness on the image `paleImage`. -/
theorem replaceBackgroundWithGray_idempotent_witness :
    paleImage.valid ∧
    replaceBackgroundWithGray (replaceBackgroundWithGray paleImage.toImage).toImage =
      replaceBackgroundWithGray paleImage.toImage ∧
    isBackground (Color.rgba grayColor) = false :=
  ⟨paleImage_valid, replaceBackgroundWithGray_idempotent paleImage paleImage_valid⟩

end AsciiImg
